import Mathlib

/-!
Verification of the config-change munge engine of apache/cordova-common.

The development shallowly embeds, in Lean 4:
  * the munge store (`deep_add`, `deep_remove`, `increment_munge`,
    `decrement_munge` from the munge-util module), and
  * the XML tree-diff primitives (`equalNodes`, `resolveParent`, `graftXML`,
    `graftXMLMerge`, `graftXMLOverwrite`, `pruneXMLRemove`,
    `findChild`, `findInsertIdx` from `src/util/xml-helpers.js`).

JavaScript objects are modelled as association lists with unique keys
(uniqueness is a hypothesis where a proof needs it); in-place mutation is
modelled by explicit state passing; JS `undefined` is modelled by `Option`.
-/

namespace Cordova

/-- Attribute maps of XML nodes (`node.attrib` in elementtree): a JS object
mapping attribute names to string values, modelled as an association list. -/
abbrev AttrList := List (String × String)

/-- A munge fragment as stored in the munge store: the serialized node string
`xml`, the reference `count`, the optional `after` ordering hint, the optional
`mode`, and the optional `oldAttrib` pre-change attribute snapshot. -/
structure Frag where
  xml : String
  count : Int
  after : Option String := none
  mode : Option String := none
  oldAttrib : Option AttrList := none
  deriving DecidableEq, Repr

/-- The per-file level of a munge: `files[fileName] = { parents: {...} }`. -/
structure FileChanges where
  parents : List (String × List Frag)
  deriving DecidableEq, Repr

/-- A munge: `{ files: { fileName: { parents: { selector: [Frag] } } } }`. -/
structure Munge where
  files : List (String × FileChanges)
  deriving DecidableEq, Repr

/-- First-binding lookup in an association list (JS object property read;
`none` models `undefined`). -/
def getAssoc {α : Type} (l : List (String × α)) (k : String) : Option α :=
  match l with
  | [] => none
  | (k', v) :: rest => if k' = k then some v else getAssoc rest k

/-- JS object property write: replace the first binding of `k`, else append
a new binding (JS objects keep insertion order and have unique keys). -/
def setAssoc {α : Type} (l : List (String × α)) (k : String) (v : α) :
    List (String × α) :=
  match l with
  | [] => [(k, v)]
  | (k', v') :: rest =>
      if k' = k then (k', v) :: rest else (k', v') :: setAssoc rest k v

/-- JS truthiness of an optional string (`undefined` and `''` are falsy). -/
def strTruthy : Option String → Bool
  | none => false
  | some s => s ≠ ""

/-- One step of `deep_add` on a sibling list, from munge-util:
find the first sibling with the same `xml` string; if found, adopt `after`
when the existing entry's `after` is falsy and add the counts; otherwise push
the element at the end.  Returns `(!matchingSibling, updated list)`. -/
def addSib : List Frag → Frag → Bool × List Frag
  | [], e => (true, [e])
  | x :: xs, e =>
      if x.xml = e.xml then
        (false,
          { x with
            after := if strTruthy x.after then x.after else e.after,
            count := x.count + e.count } :: xs)
      else
        let r := addSib xs e
        (r.1, x :: r.2)

/-- One step of `deep_remove` on a sibling list, from munge-util:
find the first sibling with the same `xml`; if none, report `true` with the
list unchanged; otherwise copy a present `oldAttrib` onto the element,
subtract the element's count, and splice the sibling out when its count is no
longer positive.  Returns `(removed-or-not-found, updated element, list)`. -/
def removeSib : List Frag → Frag → Bool × Frag × List Frag
  | [], e => (true, e, [])
  | x :: xs, e =>
      if x.xml = e.xml then
        let e' := match x.oldAttrib with
          | some oa => { e with oldAttrib := some oa }
          | none => e
        if x.count - e.count > 0 then
          (false, e', { x with count := x.count - e.count } :: xs)
        else
          (true, e', xs)
      else
        let r := removeSib xs e
        (r.1, r.2.1, x :: r.2.2)

/-- `getElements` without creation: the sibling array at
`munge.files[file].parents[selector]`, or `[]` when a key is missing. -/
def getSibs (m : Munge) (file selector : String) : List Frag :=
  match getAssoc m.files file with
  | none => []
  | some fc =>
      match getAssoc fc.parents selector with
      | none => []
      | some sibs => sibs

/-- Store a sibling array at `munge.files[file].parents[selector]`, creating
the intermediate objects when missing (the `opts.create` path of
`getElements`). -/
def setSibs (m : Munge) (file selector : String) (sibs : List Frag) : Munge :=
  let fc : FileChanges := match getAssoc m.files file with
    | none => { parents := [] }
    | some fc => fc
  { files := setAssoc m.files file
      { parents := setAssoc fc.parents selector sibs } }

/-- `deep_add(obj, [file, selector, element])` from munge-util: creates the
keys, merges by `xml` string equality, returns `true` iff the element did not
exist before. -/
def deep_add (m : Munge) (file selector : String) (e : Frag) : Bool × Munge :=
  let r := addSib (getSibs m file selector) e
  (r.1, setSibs m file selector r.2)

/-- `deep_remove(obj, [file, selector, element])` from munge-util: does not
create keys; returns `true` iff the element was removed or not found, plus
the element (with `oldAttrib` possibly copied onto it) and the new munge. -/
def deep_remove (m : Munge) (file selector : String) (e : Frag) :
    Bool × Frag × Munge :=
  match getAssoc m.files file with
  | none => (true, e, m)
  | some fc =>
      match getAssoc fc.parents selector with
      | none => (true, e, m)
      | some sibs =>
          let r := removeSib sibs e
          (r.1, r.2.1, setSibs m file selector r.2.2)

/-- The (file, selector, element) triples of a munge, in the iteration order
of `mungeItems` (files outer, selectors middle, elements inner). -/
def mungeEntries (m : Munge) : List (String × String × Frag) :=
  m.files.flatMap fun p =>
    p.2.parents.flatMap fun q =>
      q.2.map fun e => (p.1, q.1, e)

/-- A munge operation as used by `mungeItems`: takes the base munge and a
(file, selector, element) triple, returns the has-changes flag, the possibly
updated element, and the updated base. -/
abbrev MungeOp := Munge → String → String → Frag → Bool × Frag × Munge

/-- `deep_add` packaged as a `MungeOp` (it never modifies the element). -/
def addOp : MungeOp := fun m f s e =>
  let r := deep_add m f s e
  (r.1, e, r.2)

/-- `deep_remove` packaged as a `MungeOp`. -/
def removeOp : MungeOp := fun m f s e => deep_remove m f s e

/-- `mungeItems(base, munge, mungeOperation)`: run the operation on every
entry of the delta munge against the base; entries for which the operation
reports a change are `deep_add`ed into the returned diff munge.  Returns
(updated base, diff). -/
def mungeItems (base delta : Munge) (op : MungeOp) : Munge × Munge :=
  (mungeEntries delta).foldl
    (fun acc t =>
      let r := op acc.1 t.1 t.2.1 t.2.2
      (r.2.2, if r.1 then (deep_add acc.2 t.1 t.2.1 r.2.1).2 else acc.2))
    (base, { files := [] })

/-- `increment_munge(base, munge)`: `deep_add` every delta entry into the
base; the diff holds the entries that did not previously exist. -/
def increment_munge (base delta : Munge) : Munge × Munge :=
  mungeItems base delta addOp

/-- `decrement_munge(base, munge)`: `deep_remove` every delta entry from the
base; the diff holds the entries that reached zero and were removed. -/
def decrement_munge (base delta : Munge) : Munge × Munge :=
  mungeItems base delta removeOp

/-- `clone_munge(munge)`: deep copy via `increment_munge({}, munge)`. -/
def clone_munge (m : Munge) : Munge :=
  (increment_munge { files := [] } m).2

end Cordova

namespace Cordova

/-- An elementtree XML element: tag name, text content, attribute map and
child list.  JS `null` text is modelled as the empty string. -/
inductive XNode where
  | mk (tag : String) (text : String) (attrib : AttrList) (children : List XNode)

mutual

/-- Boolean structural equality of nodes (for deciding equality of the
embedding's values; distinct from the source's `equalNodes`). -/
def nodeBEq : XNode → XNode → Bool
  | ⟨t1, x1, a1, c1⟩, ⟨t2, x2, a2, c2⟩ =>
    t1 == t2 && x1 == x2 && a1 == a2 && nodesBEq c1 c2

/-- Boolean structural equality of node lists. -/
def nodesBEq : List XNode → List XNode → Bool
  | [], [] => true
  | x :: xs, y :: ys => nodeBEq x y && nodesBEq xs ys
  | _, _ => false

end

mutual

theorem nodeBEq_iff : ∀ a b, nodeBEq a b = true ↔ a = b
  | ⟨t1, x1, a1, c1⟩, ⟨t2, x2, a2, c2⟩ => by
    simp only [nodeBEq, Bool.and_eq_true, beq_iff_eq, XNode.mk.injEq]
    rw [nodesBEq_iff c1 c2]
    tauto

theorem nodesBEq_iff : ∀ as bs, nodesBEq as bs = true ↔ as = bs
  | [], [] => by simp [nodesBEq]
  | [], _ :: _ => by simp [nodesBEq]
  | _ :: _, [] => by simp [nodesBEq]
  | x :: xs, y :: ys => by
    simp only [nodesBEq, Bool.and_eq_true, List.cons.injEq]
    rw [nodeBEq_iff x y, nodesBEq_iff xs ys]

end

instance : DecidableEq XNode := fun a b =>
  decidable_of_iff (nodeBEq a b = true) (nodeBEq_iff a b)

/-- The tag name of a node. -/
def XNode.tag : XNode → String
  | ⟨t, _, _, _⟩ => t

/-- The text content of a node. -/
def XNode.text : XNode → String
  | ⟨_, x, _, _⟩ => x

/-- The attribute map of a node. -/
def XNode.attrib : XNode → AttrList
  | ⟨_, _, a, _⟩ => a

/-- The child list of a node. -/
def XNode.children : XNode → List XNode
  | ⟨_, _, _, cs⟩ => cs

/-- Replace the attribute map of a node. -/
def XNode.setAttrib : XNode → AttrList → XNode
  | ⟨t, x, _, cs⟩, a => ⟨t, x, a, cs⟩

/-- Replace the child list of a node. -/
def XNode.setChildren : XNode → List XNode → XNode
  | ⟨t, x, a, _⟩, cs => ⟨t, x, a, cs⟩

/-- Model of JS `String.prototype.trim`: strip leading and trailing
whitespace. -/
def trimStr (s : String) : String :=
  String.mk (((s.toList.dropWhile Char.isWhitespace).reverse.dropWhile
    Char.isWhitespace).reverse)

/-- `attribMatch(one, two)` from xml-helpers, on the two attribute maps:
same number of attribute keys, and every key of `one` reads the same value
(JS `undefined` = `none`) on both. -/
def attribMatch (one two : AttrList) : Bool :=
  let oneKeys := one.map Prod.fst
  let twoKeys := two.map Prod.fst
  oneKeys.length == twoKeys.length &&
    oneKeys.all fun k => getAssoc one k == getAssoc two k

mutual

/-- `equalNodes(one, two)` from xml-helpers: tags equal, trimmed texts
equal, same number of children, attributes match, and children recursively
equal in order. -/
def equalNodes : XNode → XNode → Bool
  | ⟨t1, x1, a1, c1⟩, ⟨t2, x2, a2, c2⟩ =>
    if t1 ≠ t2 then false
    else if trimStr x1 ≠ trimStr x2 then false
    else if c1.length ≠ c2.length then false
    else if ¬ attribMatch a1 a2 then false
    else equalChildren c1 c2

/-- The child-comparison loop of `equalNodes` (runs under the length-equality
guard,so the mismatched-length cases are unreachable). -/
def equalChildren : List XNode → List XNode → Bool
  | [], _ => true
  | _ :: _, [] => false
  | x :: xs, y :: ys => equalNodes x y && equalChildren xs ys

end

mutual

/-- A node is well formed when its attribute keys are distinct at every
level, as JS object keys necessarily are. -/
def wfNode : XNode → Bool
  | ⟨_, _, a, cs⟩ => decide ((a.map Prod.fst).Nodup) && wfChildren cs

/-- All nodes of a list are well formed. -/
def wfChildren : List XNode → Bool
  | [] => true
  | c :: cs => wfNode c && wfChildren cs

end

end Cordova

namespace Cordova

/-- Element of a list at an index, or `none`. -/
def getIdx {α : Type} : List α → Nat → Option α
  | [], _ => none
  | x :: _, 0 => some x
  | _ :: xs, i + 1 => getIdx xs i

/-- Apply a function to the list element at an index (no-op when out of
range). -/
def modifyIdx {α : Type} : List α → Nat → (α → α) → List α
  | [], _, _ => []
  | x :: xs, 0, f => f x :: xs
  | x :: xs, i + 1, f => x :: modifyIdx xs i f

/-- The node of a document at a child-index path; paths play the role of the
node references JS holds into the mutable tree. -/
def getAt : XNode → List Nat → Option XNode
  | n, [] => some n
  | n, i :: p =>
      match getIdx n.children i with
      | none => none
      | some c => getAt c p

/-- Rewrite the node of a document at a child-index path (no-op when the
path is invalid), the value-semantics rendering of mutating a resolved
node in place. -/
def modifyAt : XNode → List Nat → (XNode → XNode) → XNode
  | n, [], f => f n
  | ⟨t, x, a, cs⟩, i :: p, f => ⟨t, x, a, modifyIdx cs i (fun c => modifyAt c p f)⟩

/-- Does a selector path segment accept a tag (elementtree's `*` wildcard
matches any tag)? -/
def matchSeg (seg tag : String) : Bool :=
  seg = "*" || seg = tag

mutual

/-- First match, in document order, of a `/`-separated selector-segment list
against a node: `[]` selects the node itself and each segment descends
through the children.  This is the fragment of elementtree's `find` that the
repository's selectors use (plain tags and `*`; `.` segments mean "self" and
are normalised away by `resolveParent` before the search; no predicates or
`//`). -/
def findFirst : XNode → List String → Option (List Nat)
  | _, [] => some []
  | ⟨_, _, _, cs⟩, seg :: rest => firstChildMatch cs 0 seg rest

/-- Scan a child list from index `i` for the first child whose tag accepts
`seg` and whose subtree matches the remaining segments. -/
def firstChildMatch : List XNode → Nat → String → List String → Option (List Nat)
  | [], _, _, _ => none
  | c :: cs, i, seg, rest =>
      if matchSeg seg c.tag then
        match findFirst c rest with
        | some p => some (i :: p)
        | none => firstChildMatch cs (i + 1) seg rest
      else firstChildMatch cs (i + 1) seg rest

end

/-- Split a character list on `/`, dropping empty segments (the selector
splitting done by elementtree's path tokenizer). -/
def segsOfAux : List Char → List Char → List String
  | cur, [] => if cur.isEmpty then [] else [String.mk cur.reverse]
  | cur, c :: rest =>
      if c = '/' then
        if cur.isEmpty then segsOfAux [] rest
        else String.mk cur.reverse :: segsOfAux [] rest
      else segsOfAux (c :: cur) rest

/-- The segment list of a selector string. -/
def parseSel (s : String) : List String :=
  segsOfAux [] s.toList

/-- `resolveParent(doc, selector)` from xml-helpers, returning the resolved
node's path: a relative selector is an ordinary `doc.find`; an absolute
selector is resolved against a synthetic wrapper root (the `über-root`
construction), which amounts to matching the first segment against the
document root itself (with `*` accepted) and the remaining segments below
it.  `none` models the falsy `null`/`false` results. -/
def resolveParent (doc : XNode) (selector : String) : Option (List Nat) :=
  match selector.toList with
  | '/' :: restChars =>
      match (segsOfAux [] restChars).filter (· ≠ ".") with
      | [] => none
      | s0 :: rest => if matchSeg s0 doc.tag then findFirst doc rest else none
  | _ =>
      match parseSel selector with
      | [] => none
      | segs => findFirst doc (segs.filter (· ≠ "."))

/-- `parent.findall(tag)` for the plain tag names the helpers pass: the
direct children accepted by the tag. -/
def findall (parent : XNode) (tag : String) : List XNode :=
  parent.children.filter fun c => matchSeg tag c.tag

/-- `findChild(node, parent)` from xml-helpers: the first child of `parent`
with the node's tag that is `equalNodes`-equal to `node`. -/
def findChild (node parent : XNode) : Option XNode :=
  (findall parent node.tag).find? fun m => equalNodes node m

/-- JS `Array.prototype.lastIndexOf` on a tag list (`-1` when absent). -/
def lastIdxOfAux : List String → String → Int → Int → Int
  | [], _, _, best => best
  | x :: xs, t, i, best => lastIdxOfAux xs t (i + 1) (if x = t then i else best)

/-- Last index of `t` in `l`, or `-1`. -/
def lastIdxOf (l : List String) (t : String) : Int :=
  lastIdxOfAux l t 0 (-1)

/-- JS `String.prototype.split(sep)` (keeps empty pieces). -/
def splitKeep (sep : Char) : List Char → List Char → List String
  | cur, [] => [String.mk cur.reverse]
  | cur, c :: rest =>
      if c = sep then String.mk cur.reverse :: splitKeep sep [] rest
      else splitKeep sep (c :: cur) rest

/-- `findInsertIdx(children, after)` from xml-helpers: scan the `;`-separated
priority list for the first entry present among the children's tags and
insert right after its last occurrence; `0` when none matches. -/
def findInsertIdx (children : List XNode) (after : String) : Int :=
  let childrenTags := children.map XNode.tag
  let found := ((splitKeep ';' [] after.toList).map fun t =>
    lastIdxOf childrenTags t).find? fun i => i != -1
  match found with
  | none => 0
  | some i => i + 1

/-- Insert an element at a position of a list (JS `splice(i, 0, n)`). -/
def insertAtIdx (l : List XNode) (i : Nat) (n : XNode) : List XNode :=
  l.take i ++ n :: l.drop i

/-- The per-node body of `graftXML`'s insertion loop: skip the node when an
`equalNodes`-equal child already exists, otherwise insert it at the position
given by the `after` hint (end of the children when the hint is falsy). -/
def insertNode (parent : XNode) (node : XNode) (after : Option String) : XNode :=
  match findChild node parent with
  | some _ => parent
  | none =>
      let children := parent.children
      let idx : Nat :=
        if strTruthy after then (findInsertIdx children (after.getD "")).toNat
        else children.length
      parent.setChildren (insertAtIdx children idx node)

/-- `graftXML`'s insertion loop over all nodes, at the resolved parent
path. -/
def insertNodes (doc : XNode) (p : List Nat) (nodes : List XNode)
    (after : Option String) : XNode :=
  nodes.foldl (fun d n => modifyAt d p fun par => insertNode par n after) doc

/-- Node `path.basename` (trailing separators stripped, last component). -/
def pathBasename (s : String) : String :=
  let rev := s.toList.reverse.dropWhile (· = '/')
  String.mk (rev.takeWhile (· ≠ '/')).reverse

/-- Node `path.dirname`. -/
def pathDirname (s : String) : String :=
  let cs := s.toList
  let rev := cs.reverse.dropWhile (· = '/')
  let rest := (rev.dropWhile (· ≠ '/')).dropWhile (· = '/')
  if rest.isEmpty then (if cs.head? = some '/' then "/" else ".")
  else String.mk rest.reverse

/-- Model of whether `et.XML('<' + tag + '/>')` parses: the tag must be a
nonempty XML name (`path.basename` of a weird selector - empty string,
wildcard, predicate syntax - makes `et.XML` throw, which `graftXML`
catches). -/
def validTagName (t : String) : Bool :=
  t ≠ "" && t.toList.all fun c =>
    c.isAlpha || c.isDigit || c = '-' || c = '_' || c = '.' || c = ':'

/-- `graftXML(doc, nodes, selector, after)` from xml-helpers, with explicit
fuel for the ancestor-auto-creation recursion (the recursion depth is
bounded by the selector's segment count, see `graftXML`): resolve the
parent, creating missing ancestors recursively, then insert each node
unless an equal child exists. -/
def graftFuel : Nat → XNode → List XNode → String → Option String → Bool × XNode
  | 0, doc, _, _, _ => (false, doc)
  | fuel + 1, doc, nodes, selector, after =>
      match resolveParent doc selector with
      | some p => (true, insertNodes doc p nodes after)
      | none =>
          let base := pathBasename selector
          if validTagName base then
            let r := graftFuel fuel doc [⟨base, "", [], []⟩] (pathDirname selector) none
            match resolveParent r.2 selector with
            | some p => (true, insertNodes r.2 p nodes after)
            | none => (false, r.2)
          else (false, doc)

/-- `graftXML` proper: the auto-creation recurses on `path.dirname`, which
removes one segment each time (and bottoms out at `.` or `/`), so segment
count plus two steps of fuel always suffice. -/
def graftXML (doc : XNode) (nodes : List XNode) (selector : String)
    (after : Option String) : Bool × XNode :=
  graftFuel ((parseSel selector).length + 2) doc nodes selector after

/-- JS `delete attrib[k]`. -/
def eraseKey (a : AttrList) (k : String) : AttrList :=
  a.filter fun kv => kv.1 ≠ k

/-- One attribute step of `pruneXMLRemove`: `if (target.attrib[k])
delete target.attrib[k]` - the key is deleted only when its current value
is truthy (present and nonempty). -/
def deleteTruthy (a : AttrList) (k : String) : AttrList :=
  match getAssoc a k with
  | some v => if v ≠ "" then eraseKey a k else a
  | none => a

/-- `pruneXMLRemove(doc, selector, nodes)` from xml-helpers: resolve the
target; delete from it each attribute key carried by the nodes (subject to
the truthiness check); `false` and no change when unresolvable. -/
def pruneXMLRemove (doc : XNode) (selector : String) (nodes : List XNode) :
    Bool × XNode :=
  match resolveParent doc selector with
  | none => (false, doc)
  | some p =>
      (true, modifyAt doc p fun t =>
        t.setAttrib (nodes.foldl
          (fun acc n => n.attrib.foldl (fun acc2 kv => deleteTruthy acc2 kv.1) acc)
          t.attrib))

/-- JS `Object.assign(dst, src)` on attribute maps: write each source pair
in order (existing keys keep their position, new keys append). -/
def assignPairs (dst src : AttrList) : AttrList :=
  src.foldl (fun d kv => setAssoc d kv.1 kv.2) dst

/-- `graftXMLAttrs(doc, nodes, selector, xml, { overwrite })` from
xml-helpers: resolve the target, snapshot its attributes into the
fragment's `oldAttrib`, clear them when overwriting, then assign every
node's attributes; `false` and no change when unresolvable. -/
def graftXMLAttrs (doc : XNode) (nodes : List XNode) (selector : String)
    (frag : Frag) (overwrite : Bool) : Bool × Frag × XNode :=
  match resolveParent doc selector with
  | none => (false, frag, doc)
  | some p =>
      match getAt doc p with
      | none => (false, frag, doc)
      | some t =>
          let frag' := { frag with oldAttrib := some t.attrib }
          let newA := assignPairs (if overwrite then [] else t.attrib)
            (nodes.flatMap XNode.attrib)
          (true, frag', modifyAt doc p fun x => x.setAttrib newA)

/-- `graftXMLMerge(doc, nodes, selector, xml)`. -/
def graftXMLMerge (doc : XNode) (nodes : List XNode) (selector : String)
    (frag : Frag) : Bool × Frag × XNode :=
  graftXMLAttrs doc nodes selector frag false

/-- `graftXMLOverwrite(doc, nodes, selector, xml)`. -/
def graftXMLOverwrite (doc : XNode) (nodes : List XNode) (selector : String)
    (frag : Frag) : Bool × Frag × XNode :=
  graftXMLAttrs doc nodes selector frag true

mutual

/-- Modelled from the spec: a Fragment's `xml` field is "a serialized
tree-node string"; the serializer (elementtree's `write`, applied by the
munger when it builds fragments) is not part of src, so a standard XML
serialization is modelled here to relate tree nodes to their `xml`
strings. -/
def serializeNode : XNode → String
  | ⟨t, x, a, cs⟩ =>
    let attrs := String.join (a.map fun kv => " " ++ kv.1 ++ "=\"" ++ kv.2 ++ "\"")
    if x = "" && cs.isEmpty then "<" ++ t ++ attrs ++ " />"
    else "<" ++ t ++ attrs ++ ">" ++ x ++
      String.join (serializeList cs) ++ "</" ++ t ++ ">"

/-- Serializations of a node list (helper of `serializeNode`). -/
def serializeList : List XNode → List String
  | [] => []
  | c :: cs => serializeNode c :: serializeList cs

end

end Cordova

namespace Cordova

theorem getAssoc_setAssoc {α : Type} (l : List (String × α)) (k k' : String)
    (v : α) :
    getAssoc (setAssoc l k v) k' = if k = k' then some v else getAssoc l k' := by
  induction l with
  | nil => simp only [setAssoc, getAssoc]
  | cons hd tl ih =>
      obtain ⟨k0, v0⟩ := hd
      by_cases h0 : k0 = k
      · subst h0
        by_cases h1 : k0 = k'
        · subst h1; simp [setAssoc, getAssoc]
        · simp [setAssoc, getAssoc, h1]
      · by_cases h1 : k0 = k'
        · subst h1
          have h2 : k ≠ k0 := fun h => h0 h.symm
          simp [setAssoc, getAssoc, h0, h2]
        · simp [setAssoc, getAssoc, h0, h1, ih]

theorem setAssoc_self {α : Type} (l : List (String × α)) (k : String) (v : α)
    (h : getAssoc l k = some v) : setAssoc l k v = l := by
  induction l with
  | nil => simp [getAssoc] at h
  | cons hd tl ih =>
      obtain ⟨k0, v0⟩ := hd
      by_cases h0 : k0 = k
      · subst h0
        have hv : v0 = v := by simpa [getAssoc] using h
        subst hv
        simp [setAssoc]
      · have h' : getAssoc tl k = some v := by simpa [getAssoc, h0] using h
        simp [setAssoc, h0, ih h']

theorem mem_setAssoc {α : Type} (l : List (String × α)) (k : String) (v : α)
    (x : String × α) (hx : x ∈ setAssoc l k v) : x = (k, v) ∨ x ∈ l := by
  induction l with
  | nil =>
      simp only [setAssoc, List.mem_singleton] at hx
      exact Or.inl hx
  | cons hd tl ih =>
      obtain ⟨k0, v0⟩ := hd
      by_cases h0 : k0 = k
      · subst h0
        rw [show setAssoc ((k0, v0) :: tl) k0 v = (k0, v) :: tl by
          simp [setAssoc]] at hx
        rcases List.mem_cons.mp hx with h1 | h1
        · exact Or.inl h1
        · exact Or.inr (List.mem_cons_of_mem _ h1)
      · rw [show setAssoc ((k0, v0) :: tl) k v = (k0, v0) :: setAssoc tl k v by
          simp [setAssoc, h0]] at hx
        rcases List.mem_cons.mp hx with h1 | h1
        · exact Or.inr (h1 ▸ List.mem_cons_self _ _)
        · rcases ih h1 with h2 | h2
          · exact Or.inl h2
          · exact Or.inr (List.mem_cons_of_mem _ h2)

theorem getAssoc_mem {α : Type} (l : List (String × α)) (k : String) (v : α)
    (h : getAssoc l k = some v) : (k, v) ∈ l := by
  induction l with
  | nil => simp [getAssoc] at h
  | cons hd tl ih =>
      obtain ⟨k0, v0⟩ := hd
      by_cases h0 : k0 = k
      · subst h0
        have hv : v0 = v := by simpa [getAssoc] using h
        subst hv
        exact List.mem_cons_self _ _
      · have h' : getAssoc tl k = some v := by simpa [getAssoc, h0] using h
        exact List.mem_cons_of_mem _ (ih h')

theorem getSibs_setSibs_self (m : Munge) (f s : String) (sibs : List Frag) :
    getSibs (setSibs m f s sibs) f s = sibs := by
  simp [getSibs, setSibs, getAssoc_setAssoc]

theorem getSibs_setSibs_ne (m : Munge) (f s : String) (sibs : List Frag)
    (f' s' : String) (h : ¬(f = f' ∧ s = s')) :
    getSibs (setSibs m f s sibs) f' s' = getSibs m f' s' := by
  by_cases hf : f = f'
  · subst hf
    have hs : s ≠ s' := fun hs => h ⟨rfl, hs⟩
    cases hm : getAssoc m.files f with
    | none => simp [getSibs, setSibs, getAssoc_setAssoc, hs, hm, getAssoc]
    | some fc => simp [getSibs, setSibs, getAssoc_setAssoc, hs, hm]
  · simp [getSibs, setSibs, getAssoc_setAssoc, hf]

/-- Localization of `setSibs`: only the addressed (file, selector) list
changes. -/
theorem getSibs_setSibs (m : Munge) (f s : String) (sibs : List Frag)
    (f' s' : String) :
    getSibs (setSibs m f s sibs) f' s' =
      if f = f' ∧ s = s' then sibs else getSibs m f' s' := by
  by_cases h : f = f' ∧ s = s'
  · obtain ⟨hf, hs⟩ := h
    subst hf; subst hs
    simp [getSibs_setSibs_self]
  · rw [if_neg h, getSibs_setSibs_ne m f s sibs f' s' h]

/-- Localization of `deep_add`: only the addressed (file, selector) list
changes, and there it performs `addSib`. -/
theorem getSibs_deep_add (m : Munge) (f s : String) (e : Frag) (f' s' : String) :
    getSibs (deep_add m f s e).2 f' s' =
      if f = f' ∧ s = s' then (addSib (getSibs m f s) e).2
      else getSibs m f' s' := by
  unfold deep_add
  exact getSibs_setSibs m f s _ f' s'

theorem deep_remove_none_file (m : Munge) (f s : String) (e : Frag)
    (hm : getAssoc m.files f = none) : deep_remove m f s e = (true, e, m) := by
  unfold deep_remove
  rw [hm]

theorem deep_remove_none_sel (m : Munge) (f s : String) (e : Frag)
    (fc : FileChanges) (hm : getAssoc m.files f = some fc)
    (hp : getAssoc fc.parents s = none) : deep_remove m f s e = (true, e, m) := by
  unfold deep_remove
  rw [hm]
  simp only
  rw [hp]

theorem deep_remove_found (m : Munge) (f s : String) (e : Frag)
    (fc : FileChanges) (sibs : List Frag) (hm : getAssoc m.files f = some fc)
    (hp : getAssoc fc.parents s = some sibs) :
    deep_remove m f s e =
      ((removeSib sibs e).1, (removeSib sibs e).2.1,
        setSibs m f s (removeSib sibs e).2.2) := by
  unfold deep_remove
  rw [hm]
  simp only
  rw [hp]

/-- Localization of `deep_remove`: only the addressed (file, selector) list
changes, and there it performs `removeSib`. -/
theorem getSibs_deep_remove (m : Munge) (f s : String) (e : Frag)
    (f' s' : String) :
    getSibs (deep_remove m f s e).2.2 f' s' =
      if f = f' ∧ s = s' then (removeSib (getSibs m f s) e).2.2
      else getSibs m f' s' := by
  have hid : getSibs m f s = [] →
      getSibs m f' s' =
        if f = f' ∧ s = s' then (removeSib (getSibs m f s) e).2.2
        else getSibs m f' s' := by
    intro hempty
    by_cases h : f = f' ∧ s = s'
    · obtain ⟨hf, hs⟩ := h
      subst hf; subst hs
      simp [hempty, removeSib]
    · rw [if_neg h]
  cases hm : getAssoc m.files f with
  | none =>
      rw [deep_remove_none_file m f s e hm]
      exact hid (by simp [getSibs, hm])
  | some fc =>
      cases hp : getAssoc fc.parents s with
      | none =>
          rw [deep_remove_none_sel m f s e fc hm hp]
          exact hid (by simp [getSibs, hm, hp])
      | some sibs =>
          have hg : getSibs m f s = sibs := by simp [getSibs, hm, hp]
          rw [deep_remove_found m f s e fc sibs hm hp]
          simp only
          rw [getSibs_setSibs, hg]

end Cordova

namespace Cordova

/-- The updated sibling produced by a matching `deep_add`. -/
def bumpSib (x e : Frag) : Frag :=
  { x with
    after := if strTruthy x.after then x.after else e.after,
    count := x.count + e.count }

theorem addSib_nomatch (l : List Frag) (e : Frag)
    (h : ∀ y ∈ l, y.xml ≠ e.xml) : addSib l e = (true, l ++ [e]) := by
  induction l with
  | nil => simp [addSib]
  | cons x xs ih =>
      have hx : x.xml ≠ e.xml := h x (List.mem_cons_self _ _)
      have ih' := ih fun y hy => h y (List.mem_cons_of_mem _ hy)
      simp [addSib, hx, ih']

theorem addSib_match (l₁ : List Frag) (x : Frag) (l₂ : List Frag) (e : Frag)
    (h₁ : ∀ y ∈ l₁, y.xml ≠ e.xml) (hx : x.xml = e.xml) :
    addSib (l₁ ++ x :: l₂) e = (false, l₁ ++ bumpSib x e :: l₂) := by
  induction l₁ with
  | nil => simp [addSib, hx, bumpSib]
  | cons y ys ih =>
      have hy : y.xml ≠ e.xml := h₁ y (List.mem_cons_self _ _)
      have ih' := ih fun z hz => h₁ z (List.mem_cons_of_mem _ hz)
      simp [addSib, hy, ih']

theorem addSib_fst_iff (l : List Frag) (e : Frag) :
    (addSib l e).1 = true ↔ ∀ y ∈ l, y.xml ≠ e.xml := by
  induction l with
  | nil => simp [addSib]
  | cons x xs ih =>
      by_cases hx : x.xml = e.xml
      · simp [addSib, hx]
      · simp [addSib, hx, ih]

/-- The element as updated by a matching `deep_remove` (a present `oldAttrib`
of the stored sibling is copied onto it). -/
def forwardOldAttrib (x e : Frag) : Frag :=
  match x.oldAttrib with
  | some oa => { e with oldAttrib := some oa }
  | none => e

theorem removeSib_nomatch (l : List Frag) (e : Frag)
    (h : ∀ y ∈ l, y.xml ≠ e.xml) : removeSib l e = (true, e, l) := by
  induction l with
  | nil => simp [removeSib]
  | cons x xs ih =>
      have hx : x.xml ≠ e.xml := h x (List.mem_cons_self _ _)
      have ih' := ih fun y hy => h y (List.mem_cons_of_mem _ hy)
      simp [removeSib, hx, ih']

theorem removeSib_match_keep (l₁ : List Frag) (x : Frag) (l₂ : List Frag)
    (e : Frag) (h₁ : ∀ y ∈ l₁, y.xml ≠ e.xml) (hx : x.xml = e.xml)
    (hc : x.count - e.count > 0) :
    removeSib (l₁ ++ x :: l₂) e =
      (false, forwardOldAttrib x e, l₁ ++ { x with count := x.count - e.count } :: l₂) := by
  induction l₁ with
  | nil => simp [removeSib, hx, hc, forwardOldAttrib]
  | cons y ys ih =>
      have hy : y.xml ≠ e.xml := h₁ y (List.mem_cons_self _ _)
      have ih' := ih fun z hz => h₁ z (List.mem_cons_of_mem _ hz)
      simp [removeSib, hy, ih']

theorem removeSib_match_splice (l₁ : List Frag) (x : Frag) (l₂ : List Frag)
    (e : Frag) (h₁ : ∀ y ∈ l₁, y.xml ≠ e.xml) (hx : x.xml = e.xml)
    (hc : ¬x.count - e.count > 0) :
    removeSib (l₁ ++ x :: l₂) e = (true, forwardOldAttrib x e, l₁ ++ l₂) := by
  induction l₁ with
  | nil => simp [removeSib, hx, hc, forwardOldAttrib]
  | cons y ys ih =>
      have hy : y.xml ≠ e.xml := h₁ y (List.mem_cons_self _ _)
      have ih' := ih fun z hz => h₁ z (List.mem_cons_of_mem _ hz)
      simp [removeSib, hy, ih']

theorem setSibs_self (m : Munge) (f s : String) (fc : FileChanges)
    (sibs : List Frag) (hm : getAssoc m.files f = some fc)
    (hp : getAssoc fc.parents s = some sibs) : setSibs m f s sibs = m := by
  unfold setSibs
  rw [hm]
  simp only
  rw [setAssoc_self fc.parents s sibs hp]
  have : ({ parents := fc.parents } : FileChanges) = fc := rfl
  rw [this, setAssoc_self m.files f fc hm]

theorem deep_remove_nomatch (m : Munge) (f s : String) (e : Frag)
    (h : ∀ y ∈ getSibs m f s, y.xml ≠ e.xml) :
    deep_remove m f s e = (true, e, m) := by
  cases hm : getAssoc m.files f with
  | none => exact deep_remove_none_file m f s e hm
  | some fc =>
      cases hp : getAssoc fc.parents s with
      | none => exact deep_remove_none_sel m f s e fc hm hp
      | some sibs =>
          have hg : getSibs m f s = sibs := by simp [getSibs, hm, hp]
          rw [deep_remove_found m f s e fc sibs hm hp]
          rw [removeSib_nomatch sibs e (hg ▸ h)]
          simp [setSibs_self m f s fc sibs hm hp]

theorem deep_remove_fst (m : Munge) (f s : String) (e : Frag) :
    (deep_remove m f s e).1 = (removeSib (getSibs m f s) e).1 := by
  cases hm : getAssoc m.files f with
  | none =>
      rw [deep_remove_none_file m f s e hm]
      simp [getSibs, hm, removeSib]
  | some fc =>
      cases hp : getAssoc fc.parents s with
      | none =>
          rw [deep_remove_none_sel m f s e fc hm hp]
          simp [getSibs, hm, hp, removeSib]
      | some sibs =>
          rw [deep_remove_found m f s e fc sibs hm hp]
          simp [getSibs, hm, hp]

theorem deep_remove_elt (m : Munge) (f s : String) (e : Frag) :
    (deep_remove m f s e).2.1 = (removeSib (getSibs m f s) e).2.1 := by
  cases hm : getAssoc m.files f with
  | none =>
      rw [deep_remove_none_file m f s e hm]
      simp [getSibs, hm, removeSib]
  | some fc =>
      cases hp : getAssoc fc.parents s with
      | none =>
          rw [deep_remove_none_sel m f s e fc hm hp]
          simp [getSibs, hm, hp, removeSib]
      | some sibs =>
          rw [deep_remove_found m f s e fc sibs hm hp]
          simp [getSibs, hm, hp]

end Cordova

namespace Cordova

/-- Concrete fragments and munges used by the witnesses. -/
def frW1 : Frag := { xml := "<uses-permission android:name=\"X\" />", count := 1 }

def frW2 : Frag := { xml := "<uses-permission android:name=\"X\" />", count := 2 }

def mW : Munge := ⟨[("AndroidManifest.xml", ⟨[("/manifest", [frW2])]⟩)]⟩

/-- C3: for every munge, file, selector and fragment: the first `deep_add`
of the (file, selector, fragment) triple returns `true` and appends the
fragment as a new entry; every subsequent `deep_add` with the same triple
returns `false`; a matching `deep_add` increases the matched entry's count
by the argument's count and adopts the argument's `after` hint only if the
existing entry lacked one (`bumpSib`). -/
theorem deep_add_first_insert_spec (m : Munge) (f s : String) (e e2 : Frag)
    (he2 : e2.xml = e.xml) :
    ((∀ y ∈ getSibs m f s, y.xml ≠ e.xml) →
        (deep_add m f s e).1 = true ∧
        getSibs (deep_add m f s e).2 f s = getSibs m f s ++ [e] ∧
        (deep_add (deep_add m f s e).2 f s e2).1 = false) ∧
    (∀ l₁ x l₂, getSibs m f s = l₁ ++ x :: l₂ →
        (∀ y ∈ l₁, y.xml ≠ e.xml) → x.xml = e.xml →
        (deep_add m f s e).1 = false ∧
        getSibs (deep_add m f s e).2 f s = l₁ ++ bumpSib x e :: l₂) := by
  constructor
  · intro h
    have ha := addSib_nomatch (getSibs m f s) e h
    have hlist : getSibs (deep_add m f s e).2 f s = getSibs m f s ++ [e] := by
      rw [getSibs_deep_add]
      simp [ha]
    refine ⟨?_, hlist, ?_⟩
    · show (addSib (getSibs m f s) e).1 = true
      rw [ha]
    · have hmem : e ∈ getSibs (deep_add m f s e).2 f s := by
        rw [hlist]; exact List.mem_append_right _ (List.mem_singleton.mpr rfl)
      have hnot : ¬((addSib (getSibs (deep_add m f s e).2 f s) e2).1 = true) := by
        intro hall
        exact (addSib_fst_iff _ e2).mp hall e hmem (he2 ▸ rfl)
      show (addSib (getSibs (deep_add m f s e).2 f s) e2).1 = false
      exact Bool.eq_false_iff.mpr hnot
  · intro l₁ x l₂ hdec h₁ hx
    have ha := addSib_match l₁ x l₂ e h₁ hx
    constructor
    · show (addSib (getSibs m f s) e).1 = false
      rw [hdec, ha]
    · rw [getSibs_deep_add, hdec, ha]
      simp

theorem deep_add_first_insert_spec_witness :
    (deep_add (⟨[]⟩ : Munge) "AndroidManifest.xml" "/manifest" frW1).1 = true ∧
    getSibs (deep_add (⟨[]⟩ : Munge) "AndroidManifest.xml" "/manifest" frW1).2
      "AndroidManifest.xml" "/manifest" = [frW1] ∧
    (deep_add (deep_add (⟨[]⟩ : Munge) "AndroidManifest.xml" "/manifest" frW1).2
      "AndroidManifest.xml" "/manifest" frW1).1 = false := by
  have h := (deep_add_first_insert_spec (⟨[]⟩ : Munge) "AndroidManifest.xml"
    "/manifest" frW1 frW1 rfl).1 (by decide)
  exact ⟨h.1, by simpa using h.2.1, h.2.2⟩

/-- C4: `deep_remove` of a triple with no matching entry returns `true` and
leaves the store and the fragment untouched; with a matching entry it
forwards the entry's `oldAttrib` onto the caller's fragment, decrements the
entry's count by the argument's count, keeps the entry and returns `false`
while the remaining count is positive, and otherwise splices the entry out
and returns `true`; in every case only the addressed (file, selector) list
changes. -/
theorem deep_remove_spec (m : Munge) (f s : String) (e : Frag) :
    ((∀ y ∈ getSibs m f s, y.xml ≠ e.xml) → deep_remove m f s e = (true, e, m)) ∧
    (∀ l₁ x l₂, getSibs m f s = l₁ ++ x :: l₂ →
        (∀ y ∈ l₁, y.xml ≠ e.xml) → x.xml = e.xml →
        (deep_remove m f s e).2.1 = forwardOldAttrib x e ∧
        (x.count - e.count > 0 →
          (deep_remove m f s e).1 = false ∧
          getSibs (deep_remove m f s e).2.2 f s =
            l₁ ++ { x with count := x.count - e.count } :: l₂) ∧
        (¬x.count - e.count > 0 →
          (deep_remove m f s e).1 = true ∧
          getSibs (deep_remove m f s e).2.2 f s = l₁ ++ l₂) ∧
        (∀ f' s', ¬(f = f' ∧ s = s') →
          getSibs (deep_remove m f s e).2.2 f' s' = getSibs m f' s')) := by
  refine ⟨deep_remove_nomatch m f s e, ?_⟩
  intro l₁ x l₂ hdec h₁ hx
  have hframe : ∀ f' s', ¬(f = f' ∧ s = s') →
      getSibs (deep_remove m f s e).2.2 f' s' = getSibs m f' s' := by
    intro f' s' hne
    rw [getSibs_deep_remove, if_neg hne]
  refine ⟨?_, ?_, ?_, hframe⟩
  · rw [deep_remove_elt, hdec]
    by_cases hc : x.count - e.count > 0
    · rw [removeSib_match_keep l₁ x l₂ e h₁ hx hc]
    · rw [removeSib_match_splice l₁ x l₂ e h₁ hx hc]
  · intro hc
    constructor
    · rw [deep_remove_fst, hdec, removeSib_match_keep l₁ x l₂ e h₁ hx hc]
    · rw [getSibs_deep_remove, hdec, removeSib_match_keep l₁ x l₂ e h₁ hx hc]
      simp
  · intro hc
    constructor
    · rw [deep_remove_fst, hdec, removeSib_match_splice l₁ x l₂ e h₁ hx hc]
    · rw [getSibs_deep_remove, hdec, removeSib_match_splice l₁ x l₂ e h₁ hx hc]
      simp

theorem deep_remove_spec_witness :
    deep_remove (⟨[]⟩ : Munge) "AndroidManifest.xml" "/manifest" frW1 =
      (true, frW1, (⟨[]⟩ : Munge)) ∧
    (deep_remove mW "AndroidManifest.xml" "/manifest" frW1).1 = false ∧
    getSibs (deep_remove mW "AndroidManifest.xml" "/manifest" frW1).2.2
      "AndroidManifest.xml" "/manifest" = [{ frW2 with count := 1 }] := by
  have h0 := (deep_remove_spec (⟨[]⟩ : Munge) "AndroidManifest.xml"
    "/manifest" frW1).1 (by decide)
  have h := (deep_remove_spec mW "AndroidManifest.xml" "/manifest" frW1).2
    [] frW2 [] (by decide) (by decide) (by decide)
  have hkeep := h.2.1 (by decide)
  refine ⟨h0, hkeep.1, ?_⟩
  rw [hkeep.2]
  decide

/-- C2 (amended): in the munge store two fragments are the same counted
entry exactly when their `xml` strings are equal: `deep_add` reports a new
entry iff no stored sibling has the argument's `xml` string, and in that
case appends a separate entry even if a stored sibling is structurally
equal to the argument in the `equalNodes` sense. -/
theorem deep_add_match_is_xml_equality (m : Munge) (f s : String) (e : Frag) :
    ((deep_add m f s e).1 = true ↔ ∀ y ∈ getSibs m f s, y.xml ≠ e.xml) ∧
    ((∀ y ∈ getSibs m f s, y.xml ≠ e.xml) →
      getSibs (deep_add m f s e).2 f s = getSibs m f s ++ [e]) := by
  constructor
  · exact addSib_fst_iff (getSibs m f s) e
  · intro h
    rw [getSibs_deep_add]
    simp [addSib_nomatch (getSibs m f s) e h]

theorem deep_add_match_is_xml_equality_witness :
    (deep_add (⟨[]⟩ : Munge) "AndroidManifest.xml" "/manifest" frW1).1 = true ∧
    getSibs (deep_add (⟨[]⟩ : Munge) "AndroidManifest.xml" "/manifest" frW1).2
      "AndroidManifest.xml" "/manifest" = [frW1] := by
  have h := deep_add_match_is_xml_equality (⟨[]⟩ : Munge)
    "AndroidManifest.xml" "/manifest" frW1
  exact ⟨h.1.mpr (by decide), by simpa using h.2 (by decide)⟩

/-- Two structurally equal nodes (equal under `equalNodes`: text compared
trimmed) whose serialized xml strings differ. -/
def nodeTrim1 : XNode := ⟨"a", "x", [], []⟩

def nodeTrim2 : XNode := ⟨"a", " x ", [], []⟩

def fragTrim1 : Frag := { xml := serializeNode nodeTrim1, count := 1 }

def fragTrim2 : Frag := { xml := serializeNode nodeTrim2, count := 1 }

/-- C2 counterexample: `nodeTrim1` and `nodeTrim2` are structurally equal
under `equalNodes` but serialize to different xml strings, and a second
`deep_add` at the same (file, selector) with the structurally equal fragment
does NOT merge into the existing entry: it returns `true` and appends a
second separate entry, refuting the claim that matching is deep structural
equality. -/
theorem deep_add_structural_merge_counterexample :
    equalNodes nodeTrim1 nodeTrim2 = true ∧
    serializeNode nodeTrim1 ≠ serializeNode nodeTrim2 ∧
    (deep_add (deep_add (⟨[]⟩ : Munge) "config.xml" "/widget" fragTrim1).2
      "config.xml" "/widget" fragTrim2).1 = true ∧
    getSibs (deep_add (deep_add (⟨[]⟩ : Munge) "config.xml" "/widget"
      fragTrim1).2 "config.xml" "/widget" fragTrim2).2 "config.xml" "/widget" =
      [fragTrim1, fragTrim2] := by
  refine ⟨?_, by decide, by decide, by decide⟩
  decide

end Cordova

namespace Cordova

/-- A munge-store operation: one `deep_add` or `deep_remove` call. -/
inductive StoreOp where
  | add (file selector : String) (e : Frag)
  | remove (file selector : String) (e : Frag)
  deriving DecidableEq

/-- Apply one store operation to a munge. -/
def applyOp (m : Munge) : StoreOp → Munge
  | .add f s e => (deep_add m f s e).2
  | .remove f s e => (deep_remove m f s e).2.2

/-- Apply a sequence of store operations. -/
def applyOps (m : Munge) (ops : List StoreOp) : Munge :=
  ops.foldl applyOp m

/-- The operation's argument fragment carries a count of at least 1. -/
def opCount1 : StoreOp → Prop
  | .add _ _ e => 1 ≤ e.count
  | .remove _ _ e => 1 ≤ e.count

instance : DecidablePred opCount1 := fun op => by
  cases op <;> exact inferInstanceAs (Decidable (1 ≤ _))

/-- Every fragment entry anywhere in the munge has count at least 1 (the
`CountedFragment` invariant of the data model). -/
def mungeCounts1 (m : Munge) : Prop :=
  ∀ p ∈ m.files, ∀ q ∈ p.2.parents, ∀ e ∈ q.2, 1 ≤ e.count

instance : DecidablePred mungeCounts1 := fun m =>
  inferInstanceAs (Decidable (∀ p ∈ m.files, ∀ q ∈ p.2.parents, ∀ e ∈ q.2, 1 ≤ e.count))

theorem getSibs_counts (m : Munge) (f s : String) (hm : mungeCounts1 m) :
    ∀ y ∈ getSibs m f s, 1 ≤ y.count := by
  intro y hy
  revert hy
  cases hf : getAssoc m.files f with
  | none => simp [getSibs, hf]
  | some fc =>
      cases hp : getAssoc fc.parents s with
      | none => simp [getSibs, hf, hp]
      | some sibs =>
          have hg : getSibs m f s = sibs := by simp [getSibs, hf, hp]
          rw [hg]
          intro hy
          exact hm (f, fc) (getAssoc_mem _ _ _ hf) (s, sibs)
            (getAssoc_mem _ _ _ hp) y hy

theorem setSibs_counts (m : Munge) (f s : String) (sibs : List Frag)
    (hm : mungeCounts1 m) (hs : ∀ y ∈ sibs, 1 ≤ y.count) :
    mungeCounts1 (setSibs m f s sibs) := by
  intro p hp q hq e he
  unfold setSibs at hp
  rcases mem_setAssoc _ _ _ _ hp with hnew | hold
  · subst hnew
    simp only at hq
    rcases mem_setAssoc _ _ _ _ hq with hqnew | hqold
    · subst hqnew
      exact hs e he
    · cases hf : getAssoc m.files f with
      | none =>
          rw [hf] at hqold
          simp at hqold
      | some fc =>
          rw [hf] at hqold
          exact hm (f, fc) (getAssoc_mem _ _ _ hf) q hqold e he
  · exact hm p hold q hq e he

theorem addSib_counts (l : List Frag) (e : Frag)
    (hl : ∀ y ∈ l, 1 ≤ y.count) (he : 1 ≤ e.count) :
    ∀ y ∈ (addSib l e).2, 1 ≤ y.count := by
  induction l with
  | nil =>
      intro y hy
      simp only [addSib, List.mem_singleton] at hy
      subst hy; exact he
  | cons x xs ih =>
      have hx := hl x (List.mem_cons_self _ _)
      have hxs := fun y hy => hl y (List.mem_cons_of_mem _ hy)
      by_cases hxe : x.xml = e.xml
      · intro y hy
        simp only [addSib, if_pos hxe, List.mem_cons] at hy
        rcases hy with h | h
        · subst h; simp only; omega
        · exact hxs y h
      · intro y hy
        simp only [addSib, if_neg hxe, List.mem_cons] at hy
        rcases hy with h | h
        · subst h; exact hx
        · exact ih hxs y h

theorem removeSib_counts (l : List Frag) (e : Frag)
    (hl : ∀ y ∈ l, 1 ≤ y.count) :
    ∀ y ∈ (removeSib l e).2.2, 1 ≤ y.count := by
  induction l with
  | nil => intro y hy; simp [removeSib] at hy
  | cons x xs ih =>
      have hx := hl x (List.mem_cons_self _ _)
      have hxs := fun y hy => hl y (List.mem_cons_of_mem _ hy)
      by_cases hxe : x.xml = e.xml
      · by_cases hc : x.count - e.count > 0
        · intro y hy
          simp only [removeSib, if_pos hxe, if_pos hc, List.mem_cons] at hy
          rcases hy with h | h
          · subst h; simp only; omega
          · exact hxs y h
        · intro y hy
          simp only [removeSib, if_pos hxe, if_neg hc] at hy
          exact hxs y hy
      · intro y hy
        simp only [removeSib, if_neg hxe, List.mem_cons] at hy
        rcases hy with h | h
        · subst h; exact hx
        · exact ih hxs y h

theorem deep_add_counts (m : Munge) (f s : String) (e : Frag)
    (hm : mungeCounts1 m) (he : 1 ≤ e.count) :
    mungeCounts1 (deep_add m f s e).2 := by
  unfold deep_add
  exact setSibs_counts m f s _ hm
    (addSib_counts _ e (getSibs_counts m f s hm) he)

theorem deep_remove_counts (m : Munge) (f s : String) (e : Frag)
    (hm : mungeCounts1 m) : mungeCounts1 (deep_remove m f s e).2.2 := by
  cases hf : getAssoc m.files f with
  | none => rw [deep_remove_none_file m f s e hf]; exact hm
  | some fc =>
      cases hp : getAssoc fc.parents s with
      | none => rw [deep_remove_none_sel m f s e fc hf hp]; exact hm
      | some sibs =>
          rw [deep_remove_found m f s e fc sibs hf hp]
          have hsibs : ∀ y ∈ sibs, 1 ≤ y.count := by
            have hg : getSibs m f s = sibs := by simp [getSibs, hf, hp]
            exact hg ▸ getSibs_counts m f s hm
          exact setSibs_counts m f s _ hm (removeSib_counts sibs e hsibs)

/-- C5: starting from any munge whose fragment entries all have count at
least 1, after any sequence of `deep_add`/`deep_remove` operations whose
argument fragments have count at least 1, every stored entry still has
count at least 1 - an entry whose count would drop to 0 or below is spliced
out rather than kept. -/
theorem store_counts_invariant (m : Munge) (ops : List StoreOp)
    (hm : mungeCounts1 m) (hops : ∀ op ∈ ops, opCount1 op) :
    mungeCounts1 (applyOps m ops) := by
  induction ops generalizing m with
  | nil => exact hm
  | cons op rest ih =>
      have hop := hops op (List.mem_cons_self _ _)
      have hrest := fun o ho => hops o (List.mem_cons_of_mem _ ho)
      have hstep : mungeCounts1 (applyOp m op) := by
        cases op with
        | add f s e => exact deep_add_counts m f s e hm hop
        | remove f s e => exact deep_remove_counts m f s e hm
      exact ih (applyOp m op) hstep hrest

theorem store_counts_invariant_witness :
    mungeCounts1 (applyOps mW
      [.add "AndroidManifest.xml" "/manifest" frW1,
       .remove "AndroidManifest.xml" "/manifest" frW1,
       .remove "AndroidManifest.xml" "/manifest" frW2]) :=
  store_counts_invariant mW _ (by decide) (by decide)

end Cordova

namespace Cordova

/-- The count state of a stored fragment: its identity (the `xml` string)
and its reference count. -/
def projSib (e : Frag) : String × Int := (e.xml, e.count)

/-- The count state of a sibling list. -/
def projSibs (l : List Frag) : List (String × Int) := l.map projSib

/-- `addSib` on count states. -/
def addP : List (String × Int) → String × Int → List (String × Int)
  | [], e => [e]
  | x :: xs, e => if x.1 = e.1 then (x.1, x.2 + e.2) :: xs else x :: addP xs e

/-- `removeSib` on count states. -/
def removeP : List (String × Int) → String × Int → List (String × Int)
  | [], _ => []
  | x :: xs, e =>
      if x.1 = e.1 then
        (if x.2 - e.2 > 0 then (x.1, x.2 - e.2) :: xs else xs)
      else x :: removeP xs e

theorem projSibs_addSib (l : List Frag) (e : Frag) :
    projSibs (addSib l e).2 = addP (projSibs l) (projSib e) := by
  induction l with
  | nil => simp [addSib, projSibs, addP]
  | cons x xs ih =>
      by_cases hx : x.xml = e.xml
      · simp [addSib, hx, projSibs, addP, projSib]
      · simp only [addSib, if_neg hx, projSibs, List.map_cons]
        rw [show addP (projSib x :: List.map projSib xs) (projSib e) =
          projSib x :: addP (List.map projSib xs) (projSib e) by
            simp [addP, projSib, hx]]
        simpa [projSibs] using congrArg (projSib x :: ·) ih

theorem projSibs_removeSib (l : List Frag) (e : Frag) :
    projSibs (removeSib l e).2.2 = removeP (projSibs l) (projSib e) := by
  induction l with
  | nil => simp [removeSib, projSibs, removeP]
  | cons x xs ih =>
      by_cases hx : x.xml = e.xml
      · by_cases hc : x.count - e.count > 0
        · simp [removeSib, hx, hc, projSibs, removeP, projSib]
        · simp [removeSib, hx, hc, projSibs, removeP, projSib]
      · simp only [removeSib, if_neg hx, projSibs, List.map_cons]
        rw [show removeP (projSib x :: List.map projSib xs) (projSib e) =
          projSib x :: removeP (List.map projSib xs) (projSib e) by
            simp [removeP, projSib, hx]]
        simpa [projSibs] using congrArg (projSib x :: ·) ih

theorem removeP_addP_cancel (P : List (String × Int)) (e : String × Int)
    (hP : ∀ x ∈ P, 1 ≤ x.2) (he : 1 ≤ e.2) : removeP (addP P e) e = P := by
  induction P with
  | nil =>
      have h : ¬(e.2 - e.2 > 0) := by omega
      simp [addP, removeP, h]
  | cons x xs ih =>
      have hx := hP x (List.mem_cons_self _ _)
      have hxs := fun y hy => hP y (List.mem_cons_of_mem _ hy)
      by_cases h1 : x.1 = e.1
      · have hc : x.2 + e.2 - e.2 > 0 := by omega
        have hx2 : x.2 + e.2 - e.2 = x.2 := by omega
        have hstep : addP (x :: xs) e = (x.1, x.2 + e.2) :: xs := by
          simp [addP, h1]
        rw [hstep]
        have hrem : removeP ((x.1, x.2 + e.2) :: xs) e =
            if x.1 = e.1 then
              (if x.2 + e.2 - e.2 > 0 then (x.1, x.2 + e.2 - e.2) :: xs else xs)
            else (x.1, x.2 + e.2) :: removeP xs e := by
          simp [removeP]
        rw [hrem, if_pos h1, if_pos hc, hx2, Prod.mk.eta]
      · simp [addP, removeP, h1, ih hxs]

theorem removeP_addP_comm (Q : List (String × Int)) (a b : String × Int)
    (hne : a.1 ≠ b.1) : removeP (addP Q b) a = addP (removeP Q a) b := by
  induction Q with
  | nil =>
      have h : ¬(b.1 = a.1) := fun h => hne h.symm
      simp [addP, removeP, h]
  | cons x xs ih =>
      have hne' : ¬(b.1 = a.1) := fun h => hne h.symm
      by_cases hxb : x.1 = b.1
      · have hxa : ¬(x.1 = a.1) := fun h => hne (h ▸ hxb)
        simp [addP, removeP, hxb, hxa, hne, hne']
      · by_cases hxa : x.1 = a.1
        · by_cases hc : x.2 - a.2 > 0
          · simp [addP, removeP, hxb, hxa, hc, hne, hne']
          · simp [addP, removeP, hxb, hxa, hc, hne, hne']
        · simp [addP, removeP, hxb, hxa, ih]

theorem removeP_foldl_addP (E : List (String × Int)) (Q : List (String × Int))
    (a : String × Int) (h : ∀ x ∈ E, a.1 ≠ x.1) :
    removeP (List.foldl addP Q E) a = List.foldl addP (removeP Q a) E := by
  induction E generalizing Q with
  | nil => rfl
  | cons e es ih =>
      have he := h e (List.mem_cons_self _ _)
      have hes := fun x hx => h x (List.mem_cons_of_mem _ hx)
      simp only [List.foldl_cons]
      rw [ih _ hes, removeP_addP_comm Q a e he]

theorem roundtripP (E P : List (String × Int)) (hP : ∀ x ∈ P, 1 ≤ x.2)
    (hE : ∀ x ∈ E, 1 ≤ x.2) (hnd : (E.map Prod.fst).Nodup) :
    List.foldl removeP (List.foldl addP P E) E = P := by
  induction E generalizing P with
  | nil => rfl
  | cons e es ih =>
      have he := hE e (List.mem_cons_self _ _)
      have hes := fun x hx => hE x (List.mem_cons_of_mem _ hx)
      have hnd' : (es.map Prod.fst).Nodup := hnd.of_cons
      have hnotin : ∀ x ∈ es, e.1 ≠ x.1 := by
        intro x hx heq
        have : e.1 ∈ es.map Prod.fst := heq ▸ List.mem_map_of_mem Prod.fst hx
        exact (List.nodup_cons.mp hnd).1 this
      simp only [List.foldl_cons]
      rw [removeP_foldl_addP es (addP P e) e hnotin,
        removeP_addP_cancel P e hP he]
      exact ih P hP hes hnd'

end Cordova

namespace Cordova

/-- The base-munge effect of one `mungeItems` step. -/
def opBase (op : MungeOp) (b : Munge) (t : String × String × Frag) : Munge :=
  (op b t.1 t.2.1 t.2.2).2.2

theorem mungeItems_fst (base delta : Munge) (op : MungeOp) :
    (mungeItems base delta op).1 =
      List.foldl (opBase op) base (mungeEntries delta) := by
  unfold mungeItems
  generalize mungeEntries delta = es
  suffices h : ∀ (es : List (String × String × Frag)) (b d : Munge),
      (List.foldl
        (fun acc t =>
          let r := op acc.1 t.1 t.2.1 t.2.2
          (r.2.2, if r.1 then (deep_add acc.2 t.1 t.2.1 r.2.1).2 else acc.2))
        (b, d) es).1 = List.foldl (opBase op) b es by
    exact h es base { files := [] }
  intro es
  induction es with
  | nil => intro b d; rfl
  | cons t ts ih => intro b d; exact ih _ _

/-- The delta elements addressed at one (file, selector) key, in iteration
order. -/
def elemsAt (es : List (String × String × Frag)) (f s : String) : List Frag :=
  es.filterMap fun t => if t.1 = f ∧ t.2.1 = s then some t.2.2 else none

/-- Folding a per-key-localized munge operation over entry triples acts on
each (file, selector) list as the fold of its own elements. -/
theorem foldl_opBase_getSibs (op : MungeOp) (sibOp : List Frag → Frag → List Frag)
    (hloc : ∀ b f s e f' s', getSibs (opBase op b (f, s, e)) f' s' =
      if f = f' ∧ s = s' then sibOp (getSibs b f s) e else getSibs b f' s') :
    ∀ (es : List (String × String × Frag)) (b : Munge) (f s : String),
      getSibs (List.foldl (opBase op) b es) f s =
        List.foldl sibOp (getSibs b f s) (elemsAt es f s) := by
  intro es
  induction es with
  | nil => intro b f s; rfl
  | cons t ts ih =>
      intro b f s
      obtain ⟨f0, s0, e0⟩ := t
      simp only [List.foldl_cons]
      rw [ih (opBase op b (f0, s0, e0)) f s]
      by_cases h : f0 = f ∧ s0 = s
      · obtain ⟨hf, hs⟩ := h
        subst hf; subst hs
        have : elemsAt ((f0, s0, e0) :: ts) f0 s0 = e0 :: elemsAt ts f0 s0 := by
          simp [elemsAt]
        rw [this, List.foldl_cons, hloc b f0 s0 e0 f0 s0]
        simp
      · have : elemsAt ((f0, s0, e0) :: ts) f s = elemsAt ts f s := by
          simp [elemsAt, h]
        rw [this, hloc b f0 s0 e0 f s, if_neg h]

theorem addOp_localized (b : Munge) (f s : String) (e : Frag) (f' s' : String) :
    getSibs (opBase addOp b (f, s, e)) f' s' =
      if f = f' ∧ s = s' then (addSib (getSibs b f s) e).2 else getSibs b f' s' := by
  unfold opBase addOp
  exact getSibs_deep_add b f s e f' s'

theorem removeOp_localized (b : Munge) (f s : String) (e : Frag) (f' s' : String) :
    getSibs (opBase removeOp b (f, s, e)) f' s' =
      if f = f' ∧ s = s' then (removeSib (getSibs b f s) e).2.2
      else getSibs b f' s' := by
  unfold opBase removeOp
  exact getSibs_deep_remove b f s e f' s'

/-- A well-formed munge, as produced by JS objects: unique file keys, unique
selector keys per file, unique `xml` strings per sibling list, and counts of
at least 1 (the data model's `CountedFragment` invariant). -/
def mungeWF (m : Munge) : Prop :=
  (m.files.map Prod.fst).Nodup ∧
  ∀ p ∈ m.files, ((p.2.parents.map Prod.fst).Nodup ∧
    ∀ q ∈ p.2.parents, ((q.2.map Frag.xml).Nodup ∧ ∀ e ∈ q.2, 1 ≤ e.count))

instance : DecidablePred mungeWF := fun m =>
  inferInstanceAs (Decidable (_ ∧ _))

theorem elemsAt_append (a b : List (String × String × Frag)) (f s : String) :
    elemsAt (a ++ b) f s = elemsAt a f s ++ elemsAt b f s := by
  simp [elemsAt]

/-- Entries of one selector block. -/
theorem elemsAt_block (f0 s0 : String) (es : List Frag) (f s : String) :
    elemsAt (es.map fun e => (f0, s0, e)) f s =
      if f0 = f ∧ s0 = s then es else [] := by
  induction es with
  | nil => simp [elemsAt]
  | cons e rest ih =>
      by_cases h : f0 = f ∧ s0 = s
      · simp only [List.map_cons, elemsAt, List.filterMap_cons] at ih ⊢
        simp [h] at ih ⊢
        exact ih
      · simp only [List.map_cons, elemsAt, List.filterMap_cons] at ih ⊢
        simp [h]

/-- Entries of one file block. -/
def fileBlock (f0 : String) (fc : FileChanges) : List (String × String × Frag) :=
  fc.parents.flatMap fun q => q.2.map fun e => (f0, q.1, e)

theorem mungeEntries_cons (f0 : String) (fc : FileChanges)
    (rest : List (String × FileChanges)) :
    mungeEntries ⟨(f0, fc) :: rest⟩ = fileBlock f0 fc ++ mungeEntries ⟨rest⟩ := by
  simp [mungeEntries, fileBlock]

theorem elemsAt_fileBlock_ne (f0 : String) (parents : List (String × List Frag))
    (f s : String) (hne : f0 ≠ f) :
    elemsAt (fileBlock f0 ⟨parents⟩) f s = [] := by
  induction parents with
  | nil => simp [fileBlock, elemsAt]
  | cons q rest ih =>
      rw [show fileBlock f0 ⟨q :: rest⟩ =
        (q.2.map fun e => (f0, q.1, e)) ++ fileBlock f0 ⟨rest⟩ by
          simp [fileBlock]]
      rw [elemsAt_append, elemsAt_block,
        if_neg (fun hh : f0 = f ∧ q.1 = s => hne hh.1), List.nil_append]
      exact ih

theorem elemsAt_fileBlock_notmem (f0 : String)
    (parents : List (String × List Frag)) (s : String)
    (h : s ∉ parents.map Prod.fst) :
    elemsAt (fileBlock f0 ⟨parents⟩) f0 s = [] := by
  induction parents with
  | nil => simp [fileBlock, elemsAt]
  | cons q rest ih =>
      have hq : q.1 ≠ s := by
        intro hh
        exact h (by simp [hh])
      have h' : s ∉ rest.map Prod.fst := fun hh => h (by simp [hh])
      rw [show fileBlock f0 ⟨q :: rest⟩ =
        (q.2.map fun e => (f0, q.1, e)) ++ fileBlock f0 ⟨rest⟩ by
          simp [fileBlock]]
      rw [elemsAt_append, elemsAt_block,
        if_neg (fun hh : f0 = f0 ∧ q.1 = s => hq hh.2), List.nil_append]
      exact ih h'

theorem elemsAt_fileBlock_eq (f0 : String)
    (parents : List (String × List Frag)) (s : String)
    (hnd : (parents.map Prod.fst).Nodup) :
    elemsAt (fileBlock f0 ⟨parents⟩) f0 s =
      (match getAssoc parents s with
      | none => []
      | some es => es) := by
  induction parents with
  | nil => simp [fileBlock, elemsAt, getAssoc]
  | cons q rest ih =>
      obtain ⟨s0, es0⟩ := q
      have hnd' : (rest.map Prod.fst).Nodup := hnd.of_cons
      rw [show fileBlock f0 ⟨(s0, es0) :: rest⟩ =
        (es0.map fun e => (f0, s0, e)) ++ fileBlock f0 ⟨rest⟩ by
          simp [fileBlock]]
      rw [elemsAt_append, elemsAt_block]
      by_cases hs : s0 = s
      · subst hs
        have hnotin : s0 ∉ rest.map Prod.fst := by
          simpa using (List.nodup_cons.mp hnd).1
        rw [if_pos ⟨rfl, rfl⟩, elemsAt_fileBlock_notmem f0 rest s0 hnotin,
          List.append_nil]
        simp [getAssoc]
      · rw [if_neg (fun hh : f0 = f0 ∧ s0 = s => hs hh.2), List.nil_append,
          ih hnd']
        simp [getAssoc, hs]

theorem elemsAt_mungeEntries_notmem (files : List (String × FileChanges))
    (f s : String) (h : f ∉ files.map Prod.fst) :
    elemsAt (mungeEntries ⟨files⟩) f s = [] := by
  induction files with
  | nil => simp [mungeEntries, elemsAt]
  | cons p rest ih =>
      have hp : p.1 ≠ f := by
        intro hh
        exact h (by simp [hh])
      have h' : f ∉ rest.map Prod.fst := fun hh => h (by simp [hh])
      rw [show (⟨p :: rest⟩ : Munge) = ⟨(p.1, p.2) :: rest⟩ by rfl,
        mungeEntries_cons, elemsAt_append,
        show fileBlock p.1 p.2 = fileBlock p.1 ⟨p.2.parents⟩ by rfl,
        elemsAt_fileBlock_ne p.1 p.2.parents f s hp, List.nil_append]
      exact ih h'

/-- For a well-formed delta munge, the elements its iteration contributes at
a (file, selector) key are exactly the stored list at that key. -/
theorem elemsAt_mungeEntries (files : List (String × FileChanges))
    (f s : String) (hnd : (files.map Prod.fst).Nodup)
    (hinner : ∀ p ∈ files, (p.2.parents.map Prod.fst).Nodup) :
    elemsAt (mungeEntries ⟨files⟩) f s = getSibs ⟨files⟩ f s := by
  induction files with
  | nil => simp [mungeEntries, elemsAt, getSibs, getAssoc]
  | cons p rest ih =>
      obtain ⟨f0, fc⟩ := p
      have hnd' : (rest.map Prod.fst).Nodup := hnd.of_cons
      have hinner' : ∀ p ∈ rest, (p.2.parents.map Prod.fst).Nodup :=
        fun p hp => hinner p (List.mem_cons_of_mem _ hp)
      rw [mungeEntries_cons, elemsAt_append]
      by_cases hf : f0 = f
      · subst hf
        have hnotin : f0 ∉ rest.map Prod.fst := by
          simpa using (List.nodup_cons.mp hnd).1
        rw [elemsAt_mungeEntries_notmem rest f0 s hnotin, List.append_nil,
          show fileBlock f0 fc = fileBlock f0 ⟨fc.parents⟩ by rfl,
          elemsAt_fileBlock_eq f0 fc.parents s
            (hinner (f0, fc) (List.mem_cons_self _ _))]
        simp [getSibs, getAssoc]
      · rw [show fileBlock f0 fc = fileBlock f0 ⟨fc.parents⟩ by rfl,
          elemsAt_fileBlock_ne f0 fc.parents f s hf, List.nil_append,
          ih hnd' hinner']
        simp [getSibs, getAssoc, hf]

end Cordova

namespace Cordova

/-- The list component of `addSib`. -/
def addSibL (l : List Frag) (e : Frag) : List Frag := (addSib l e).2

/-- The list component of `removeSib`. -/
def removeSibL (l : List Frag) (e : Frag) : List Frag := (removeSib l e).2.2

theorem projSibs_foldl_addSibL (E : List Frag) (L : List Frag) :
    projSibs (List.foldl addSibL L E) =
      List.foldl addP (projSibs L) (E.map projSib) := by
  induction E generalizing L with
  | nil => rfl
  | cons e es ih =>
      simp only [List.foldl_cons, List.map_cons]
      rw [ih (addSibL L e), show projSibs (addSibL L e) =
        addP (projSibs L) (projSib e) from projSibs_addSib L e]

theorem projSibs_foldl_removeSibL (E : List Frag) (L : List Frag) :
    projSibs (List.foldl removeSibL L E) =
      List.foldl removeP (projSibs L) (E.map projSib) := by
  induction E generalizing L with
  | nil => rfl
  | cons e es ih =>
      simp only [List.foldl_cons, List.map_cons]
      rw [ih (removeSibL L e), show projSibs (removeSibL L e) =
        removeP (projSibs L) (projSib e) from projSibs_removeSib L e]

theorem mungeWF_counts (m : Munge) (hm : mungeWF m) : mungeCounts1 m :=
  fun p hp q hq e he => ((hm.2 p hp).2 q hq).2 e he

theorem getSibs_xml_nodup (m : Munge) (f s : String) (hm : mungeWF m) :
    ((getSibs m f s).map Frag.xml).Nodup := by
  cases hf : getAssoc m.files f with
  | none => simp [getSibs, hf]
  | some fc =>
      cases hp : getAssoc fc.parents s with
      | none => simp [getSibs, hf, hp]
      | some sibs =>
          have hg : getSibs m f s = sibs := by simp [getSibs, hf, hp]
          rw [hg]
          exact ((hm.2 (f, fc) (getAssoc_mem _ _ _ hf)).2 (s, sibs)
            (getAssoc_mem _ _ _ hp)).1

/-- C1: for a munge base M (counts at least 1) and a well-formed delta D
whose entries carry counts at least 1, `decrement_munge` applied after
`increment_munge` with the same D restores, at every (file, selector) key,
the exact pre-increment sequence of (xml, count) entry states of M; an
`oldAttrib` snapshot set on an entry is outside the restored count state, as
the claim's exception anticipates. -/
theorem increment_decrement_roundtrip (M D : Munge) (hM : mungeCounts1 M)
    (hD : mungeWF D) (f s : String) :
    projSibs (getSibs (decrement_munge (increment_munge M D).1 D).1 f s) =
      projSibs (getSibs M f s) := by
  have hmid : (increment_munge M D).1 =
      List.foldl (opBase addOp) M (mungeEntries D) := mungeItems_fst M D addOp
  have hfin : (decrement_munge (increment_munge M D).1 D).1 =
      List.foldl (opBase removeOp)
        (List.foldl (opBase addOp) M (mungeEntries D)) (mungeEntries D) := by
    rw [decrement_munge, mungeItems_fst, hmid]
  rw [hfin,
    foldl_opBase_getSibs removeOp removeSibL
      (fun b f s e f' s' => removeOp_localized b f s e f' s')
      (mungeEntries D) _ f s,
    foldl_opBase_getSibs addOp addSibL
      (fun b f s e f' s' => addOp_localized b f s e f' s')
      (mungeEntries D) M f s,
    projSibs_foldl_removeSibL, projSibs_foldl_addSibL]
  have hE : elemsAt (mungeEntries D) f s = getSibs D f s := by
    obtain ⟨files⟩ := D
    exact elemsAt_mungeEntries files f s hD.1 fun p hp => (hD.2 p hp).1
  have hP : ∀ x ∈ projSibs (getSibs M f s), 1 ≤ x.2 := by
    intro x hx
    obtain ⟨e, he, rfl⟩ := List.mem_map.mp hx
    exact getSibs_counts M f s hM e he
  have hEc : ∀ x ∈ (elemsAt (mungeEntries D) f s).map projSib, 1 ≤ x.2 := by
    intro x hx
    obtain ⟨e, he, rfl⟩ := List.mem_map.mp hx
    rw [hE] at he
    exact getSibs_counts D f s (mungeWF_counts D hD) e he
  have hnd : (((elemsAt (mungeEntries D) f s).map projSib).map Prod.fst).Nodup := by
    rw [List.map_map]
    have hfun : (Prod.fst ∘ projSib) = Frag.xml := rfl
    rw [hfun, hE]
    exact getSibs_xml_nodup D f s hD
  exact roundtripP _ _ hP hEc hnd

/-- A concrete delta munge for the round-trip witness: one fragment already
present in `mW` and one new fragment, at two files. -/
def dW : Munge :=
  ⟨[("AndroidManifest.xml",
      ⟨[("/manifest", [frW1, { xml := "<meta-data />", count := 1 }])]⟩),
    ("config.xml", ⟨[("/widget", [frW1])]⟩)]⟩

theorem increment_decrement_roundtrip_witness :
    projSibs (getSibs (decrement_munge (increment_munge mW dW).1 dW).1
      "AndroidManifest.xml" "/manifest") =
      projSibs (getSibs mW "AndroidManifest.xml" "/manifest") :=
  increment_decrement_roundtrip mW dW (by decide) (by decide)
    "AndroidManifest.xml" "/manifest"

end Cordova

namespace Cordova

theorem getAssoc_isSome_of_mem_keys {α : Type} (l : List (String × α))
    (k : String) (h : k ∈ l.map Prod.fst) : ∃ v, getAssoc l k = some v := by
  induction l with
  | nil => simp at h
  | cons hd tl ih =>
      obtain ⟨k0, v0⟩ := hd
      by_cases h0 : k0 = k
      · exact ⟨v0, by simp [getAssoc, h0]⟩
      · have h' : k ∈ tl.map Prod.fst := by
          rcases List.mem_cons.mp h with h1 | h1
          · exact absurd h1.symm h0
          · exact h1
        obtain ⟨v, hv⟩ := ih h'
        exact ⟨v, by simp [getAssoc, h0, hv]⟩

theorem mem_keys_of_getAssoc {α : Type} (l : List (String × α)) (k : String)
    (v : α) (h : getAssoc l k = some v) : k ∈ l.map Prod.fst :=
  List.mem_map.mpr ⟨(k, v), getAssoc_mem l k v h, rfl⟩

theorem getAssoc_perm {α : Type} (l l' : List (String × α))
    (h : l.Perm l') (hnd : (l.map Prod.fst).Nodup) (k : String) :
    getAssoc l k = getAssoc l' k := by
  induction h with
  | nil => rfl
  | cons x h ih =>
      rw [List.map_cons, List.nodup_cons] at hnd
      by_cases hx : x.1 = k
      · simp [getAssoc, hx]
      · simp [getAssoc, hx, ih hnd.2]
  | swap x y l =>
      rw [List.map_cons, List.map_cons, List.nodup_cons] at hnd
      have hxy : y.1 ≠ x.1 := fun hh => hnd.1 (by rw [hh]; exact List.mem_cons_self _ _)
      by_cases hy : y.1 = k
      · have hx : ¬x.1 = k := fun hh => hxy (hy.trans hh.symm)
        simp [getAssoc, hx, hy]
      · by_cases hx : x.1 = k
        · simp [getAssoc, hx, hy]
        · simp [getAssoc, hx, hy]
  | trans h12 h23 ih12 ih23 =>
      have hnd2 : _ := ((h12.map Prod.fst).nodup_iff).mp hnd
      exact (ih12 hnd).trans (ih23 hnd2)

theorem attribMatch_true_flip (a b : AttrList)
    (ha : (a.map Prod.fst).Nodup) (hb : (b.map Prod.fst).Nodup)
    (h : attribMatch a b = true) : attribMatch b a = true := by
  unfold attribMatch at h ⊢
  simp only [Bool.and_eq_true, beq_iff_eq, List.all_eq_true] at h ⊢
  obtain ⟨hlen, hall⟩ := h
  have hsub : (a.map Prod.fst) ⊆ (b.map Prod.fst) := by
    intro k hk
    obtain ⟨v, hv⟩ := getAssoc_isSome_of_mem_keys a k hk
    have hb' : getAssoc b k = some v := (hall k hk).symm.trans hv
    exact mem_keys_of_getAssoc b k v hb'
  have hperm : (a.map Prod.fst).Perm (b.map Prod.fst) :=
    (List.subperm_of_subset ha hsub).perm_of_length_le (le_of_eq hlen.symm)
  refine ⟨hlen.symm, fun k hk => ?_⟩
  exact (hall k (hperm.mem_iff.mpr hk)).symm

theorem attribMatch_symm (a b : AttrList)
    (ha : (a.map Prod.fst).Nodup) (hb : (b.map Prod.fst).Nodup) :
    attribMatch a b = attribMatch b a := by
  cases hab : attribMatch a b with
  | true => exact (attribMatch_true_flip a b ha hb hab).symm
  | false =>
      cases hba : attribMatch b a with
      | true => exact absurd (attribMatch_true_flip b a hb ha hba) (by simp [hab])
      | false => rfl

theorem attribMatch_refl (a : AttrList) : attribMatch a a = true := by
  unfold attribMatch
  simp

theorem wfNode_parts (t x : String) (a : AttrList) (cs : List XNode)
    (h : wfNode ⟨t, x, a, cs⟩ = true) :
    (a.map Prod.fst).Nodup ∧ wfChildren cs = true := by
  simpa [wfNode] using h

theorem wfChildren_mem (cs : List XNode) (c : XNode) (hc : c ∈ cs)
    (h : wfChildren cs = true) : wfNode c = true := by
  induction cs with
  | nil => simp at hc
  | cons d ds ih =>
      have h' := by simpa [wfChildren] using h
      rcases List.mem_cons.mp hc with h1 | h1
      · exact h1 ▸ h'.1
      · exact ih h1 h'.2

/-- `equalNodes` written as one boolean conjunction of its four guards and
the child comparison. -/
theorem equalNodes_eq (t1 x1 : String) (a1 : AttrList) (c1 : List XNode)
    (t2 x2 : String) (a2 : AttrList) (c2 : List XNode) :
    equalNodes ⟨t1, x1, a1, c1⟩ ⟨t2, x2, a2, c2⟩ =
      (decide (t1 = t2) && decide (trimStr x1 = trimStr x2) &&
        decide (c1.length = c2.length) && attribMatch a1 a2 &&
        equalChildren c1 c2) := by
  simp only [equalNodes]
  by_cases ht : t1 = t2 <;> by_cases htx : trimStr x1 = trimStr x2 <;>
    by_cases hlen : c1.length = c2.length <;>
    cases ham : attribMatch a1 a2 <;>
    simp [ht, htx, hlen, ham]

mutual

theorem equalNodes_refl : ∀ a, equalNodes a a = true
  | ⟨t, x, a, cs⟩ => by
    rw [equalNodes_eq]
    simp [attribMatch_refl, equalChildren_refl cs]

theorem equalChildren_refl : ∀ cs, equalChildren cs cs = true
  | [] => rfl
  | c :: cs => by
    simp [equalChildren, equalNodes_refl c, equalChildren_refl cs]

end

mutual

theorem equalNodes_symm : ∀ a b, wfNode a = true → wfNode b = true →
    equalNodes a b = equalNodes b a
  | ⟨t1, x1, a1, c1⟩, ⟨t2, x2, a2, c2⟩ => by
    intro h1 h2
    obtain ⟨ha1, hc1⟩ := wfNode_parts _ _ _ _ h1
    obtain ⟨ha2, hc2⟩ := wfNode_parts _ _ _ _ h2
    rw [equalNodes_eq, equalNodes_eq]
    by_cases hlen : c1.length = c2.length
    · rw [equalChildren_symm c1 c2 hlen hc1 hc2,
        attribMatch_symm a1 a2 ha1 ha2,
        decide_eq_decide.mpr (eq_comm : (t1 = t2) ↔ _),
        decide_eq_decide.mpr (eq_comm : (trimStr x1 = trimStr x2) ↔ _),
        decide_eq_decide.mpr (eq_comm : (c1.length = c2.length) ↔ _)]
    · have hlen' : ¬c2.length = c1.length := fun h => hlen h.symm
      simp [hlen, hlen']

theorem equalChildren_symm : ∀ as bs, as.length = bs.length →
    wfChildren as = true → wfChildren bs = true →
    equalChildren as bs = equalChildren bs as
  | [], [] => fun _ _ _ => rfl
  | [], _ :: _ => fun h _ _ => by simp at h
  | _ :: _, [] => fun h _ _ => by simp at h
  | a :: as, b :: bs => fun hlen ha hb => by
    have ha' := by simpa [wfChildren] using ha
    have hb' := by simpa [wfChildren] using hb
    have hlen' : as.length = bs.length := by simpa using hlen
    simp only [equalChildren]
    rw [equalNodes_symm a b ha'.1 hb'.1,
      equalChildren_symm as bs hlen' ha'.2 hb'.2]

end

end Cordova

namespace Cordova

theorem all_perm {α : Type} (l l' : List α) (p : α → Bool) (h : l.Perm l') :
    l.all p = l'.all p := by
  induction h with
  | nil => rfl
  | cons x h ih => simp [List.all_cons, ih]
  | swap x y l =>
      simp only [List.all_cons]
      rw [← Bool.and_assoc, Bool.and_comm (p y) (p x), Bool.and_assoc]
  | trans h1 h2 ih1 ih2 => exact ih1.trans ih2

theorem attribMatch_congr_left (a' a b : AttrList) (hperm : a'.Perm a)
    (ha : (a.map Prod.fst).Nodup) : attribMatch a' b = attribMatch a b := by
  have ha' : (a'.map Prod.fst).Nodup := ((hperm.map Prod.fst).nodup_iff).mpr ha
  have hlookup : ∀ k, getAssoc a' k = getAssoc a k :=
    getAssoc_perm a' a hperm ha'
  unfold attribMatch
  have hlen : (a'.map Prod.fst).length = (a.map Prod.fst).length :=
    (hperm.map Prod.fst).length_eq
  have hfn : (fun k => getAssoc a' k == getAssoc b k) =
      (fun k => getAssoc a k == getAssoc b k) :=
    funext fun k => by rw [hlookup k]
  dsimp only
  rw [hlen, hfn, all_perm _ _ _ (hperm.map Prod.fst)]

theorem attribMatch_congr_right (a b' b : AttrList) (hperm : b'.Perm b)
    (hb : (b.map Prod.fst).Nodup) : attribMatch a b' = attribMatch a b := by
  have hb' : (b'.map Prod.fst).Nodup := ((hperm.map Prod.fst).nodup_iff).mpr hb
  have hlookup : ∀ k, getAssoc b' k = getAssoc b k :=
    getAssoc_perm b' b hperm hb'
  unfold attribMatch
  have hlen : (b'.map Prod.fst).length = (b.map Prod.fst).length :=
    (hperm.map Prod.fst).length_eq
  have hfn : (fun k => getAssoc a k == getAssoc b' k) =
      (fun k => getAssoc a k == getAssoc b k) :=
    funext fun k => by rw [hlookup k]
  dsimp only
  rw [hlen, hfn]

/-- C7: `equalNodes` is reflexive; symmetric on well-formed nodes (JS object
attribute maps have unique keys); its result does not depend on the order of
the attribute bindings of either node, nor on the exact text up to
leading/trailing whitespace (text is compared trimmed). -/
theorem equalNodes_props (a b : XNode) (ha : wfNode a = true)
    (hb : wfNode b = true) :
    equalNodes a a = true ∧
    equalNodes a b = equalNodes b a ∧
    (∀ al, al.Perm a.attrib →
      equalNodes ⟨a.tag, a.text, al, a.children⟩ b = equalNodes a b) ∧
    (∀ bl, bl.Perm b.attrib →
      equalNodes a ⟨b.tag, b.text, bl, b.children⟩ = equalNodes a b) ∧
    (∀ t, trimStr t = trimStr a.text →
      equalNodes ⟨a.tag, t, a.attrib, a.children⟩ b = equalNodes a b) ∧
    (∀ t, trimStr t = trimStr b.text →
      equalNodes a ⟨b.tag, t, b.attrib, b.children⟩ = equalNodes a b) := by
  obtain ⟨t1, x1, a1, c1⟩ := a
  obtain ⟨t2, x2, a2, c2⟩ := b
  obtain ⟨ha1, hc1⟩ := wfNode_parts _ _ _ _ ha
  obtain ⟨ha2, hc2⟩ := wfNode_parts _ _ _ _ hb
  simp only [XNode.tag, XNode.text, XNode.attrib, XNode.children]
  refine ⟨equalNodes_refl _, equalNodes_symm _ _ ha hb, ?_, ?_, ?_, ?_⟩
  · intro al hperm
    rw [equalNodes_eq, equalNodes_eq,
      attribMatch_congr_left al a1 a2 hperm ha1]
  · intro bl hperm
    rw [equalNodes_eq, equalNodes_eq,
      attribMatch_congr_right a1 bl a2 hperm ha2]
  · intro t htr
    rw [equalNodes_eq, equalNodes_eq, htr]
  · intro t htr
    rw [equalNodes_eq, equalNodes_eq, htr]

/-- Concrete nodes for the `equalNodes` witness. -/
def ndW1 : XNode := ⟨"uses-sdk", " ", [("android:minSdkVersion", "5")], []⟩

def ndW2 : XNode :=
  ⟨"uses-sdk", "", [("android:minSdkVersion", "5"), ("android:targetSdkVersion", "24")], []⟩

theorem equalNodes_props_witness :
    equalNodes ndW1 ndW1 = true ∧
    equalNodes ndW1 ndW2 = equalNodes ndW2 ndW1 ∧
    equalNodes ndW1
      ⟨ndW2.tag, ndW2.text,
        [("android:targetSdkVersion", "24"), ("android:minSdkVersion", "5")],
        ndW2.children⟩ = equalNodes ndW1 ndW2 := by
  have h := equalNodes_props ndW1 ndW2 (by decide) (by decide)
  exact ⟨h.1, h.2.1, h.2.2.2.1 _ (by decide)⟩

end Cordova

namespace Cordova

theorem getIdx_modifyIdx {α : Type} (l : List α) (i : Nat) (f : α → α) :
    getIdx (modifyIdx l i f) i = (getIdx l i).map f := by
  induction l generalizing i with
  | nil => cases i <;> rfl
  | cons x xs ih =>
      cases i with
      | zero => rfl
      | succ j => exact ih j

theorem modifyIdx_id {α : Type} (l : List α) (i : Nat) (f : α → α) (x : α)
    (h : getIdx l i = some x) (hf : f x = x) : modifyIdx l i f = l := by
  induction l generalizing i with
  | nil => rfl
  | cons y ys ih =>
      cases i with
      | zero =>
          have hx : y = x := by simpa [getIdx] using h
          subst hx
          simp [modifyIdx, hf]
      | succ j =>
          have h' : getIdx ys j = some x := by simpa [getIdx] using h
          simp [modifyIdx, ih j h']

theorem getAt_modifyAt (d : XNode) (p : List Nat) (f : XNode → XNode)
    (x : XNode) (h : getAt d p = some x) :
    getAt (modifyAt d p f) p = some (f x) := by
  induction p generalizing d with
  | nil =>
      have hx : d = x := by simpa [getAt] using h
      subst hx
      simp [getAt, modifyAt]
  | cons i p ih =>
      obtain ⟨t, xx, a, cs⟩ := d
      cases hc : getIdx cs i with
      | none => simp [getAt, XNode.children, hc] at h
      | some c =>
          have h' : getAt c p = some x := by
            simpa [getAt, XNode.children, hc] using h
          have hg : getIdx (modifyIdx cs i fun c => modifyAt c p f) i =
              some (modifyAt c p f) := by
            rw [getIdx_modifyIdx, hc]
            rfl
          simp [getAt, modifyAt, XNode.children, hg, ih c h']

theorem modifyAt_id (d : XNode) (p : List Nat) (f : XNode → XNode) (x : XNode)
    (h : getAt d p = some x) (hf : f x = x) : modifyAt d p f = d := by
  induction p generalizing d with
  | nil =>
      have hx : d = x := by simpa [getAt] using h
      subst hx
      simpa [modifyAt] using hf
  | cons i p ih =>
      obtain ⟨t, xx, a, cs⟩ := d
      cases hc : getIdx cs i with
      | none => simp [getAt, XNode.children, hc] at h
      | some c =>
          have h' : getAt c p = some x := by
            simpa [getAt, XNode.children, hc] using h
          simp [modifyAt,
            modifyIdx_id cs i (fun c => modifyAt c p f) c hc (ih c h')]

theorem modifyAt_tag (c : XNode) (q : List Nat) (f : XNode → XNode)
    (htag : ∀ x, (f x).tag = x.tag) : (modifyAt c q f).tag = c.tag := by
  obtain ⟨t, x, a, cs⟩ := c
  cases q with
  | nil => exact htag _
  | cons i p => rfl

theorem firstChildMatch_shape (cs : List XNode) (i0 : Nat) (seg : String)
    (rest : List String) (p : List Nat)
    (h : firstChildMatch cs i0 seg rest = some p) :
    ∃ j q, p = j :: q ∧ i0 ≤ j := by
  induction cs generalizing i0 with
  | nil => simp [firstChildMatch] at h
  | cons c cs' ih =>
      simp only [firstChildMatch] at h
      by_cases hm : matchSeg seg c.tag
      · rw [if_pos hm] at h
        cases hf : findFirst c rest with
        | some q0 =>
            rw [hf] at h
            exact ⟨i0, q0, (Option.some.injEq _ _ ▸ h).symm, le_refl i0⟩
        | none =>
            rw [hf] at h
            obtain ⟨j, q, hp, hle⟩ := ih (i0 + 1) h
            exact ⟨j, q, hp, by omega⟩
      · rw [if_neg hm] at h
        obtain ⟨j, q, hp, hle⟩ := ih (i0 + 1) h
        exact ⟨j, q, hp, by omega⟩

end Cordova

namespace Cordova

mutual

theorem findFirst_valid : ∀ (n : XNode) (segs : List String) (p : List Nat),
    findFirst n segs = some p → ∃ x, getAt n p = some x
  | n, [], p => by
    intro h
    have hp : p = [] := by simpa [findFirst] using h.symm
    subst hp
    exact ⟨n, rfl⟩
  | ⟨t, x, a, cs⟩, seg :: rest, p => by
    intro h
    simp only [findFirst] at h
    obtain ⟨j, q, rfl, _⟩ := firstChildMatch_shape cs 0 seg rest p h
    obtain ⟨c, hc, xx, hxx⟩ := firstChildMatch_valid cs 0 seg rest j q h
    rw [Nat.sub_zero] at hc
    exact ⟨xx, by simp [getAt, XNode.children, hc, hxx]⟩

theorem firstChildMatch_valid : ∀ (cs : List XNode) (i0 : Nat) (seg : String)
    (rest : List String) (j : Nat) (q : List Nat),
    firstChildMatch cs i0 seg rest = some (j :: q) →
    ∃ c, getIdx cs (j - i0) = some c ∧ ∃ x, getAt c q = some x
  | [], i0, seg, rest, j, q => by
    intro h
    simp [firstChildMatch] at h
  | c :: cs', i0, seg, rest, j, q => by
    intro h
    simp only [firstChildMatch] at h
    by_cases hm : matchSeg seg c.tag
    · rw [if_pos hm] at h
      cases hf : findFirst c rest with
      | some q0 =>
          rw [hf] at h
          simp only [Option.some.injEq, List.cons.injEq] at h
          obtain ⟨h1, h2⟩ := h
          subst h1
          subst h2
          refine ⟨c, by simp [getIdx], ?_⟩
          exact findFirst_valid c rest _ hf
      | none =>
          rw [hf] at h
          have hle : i0 + 1 ≤ j := by
            obtain ⟨j2, q2, hjq, hle2⟩ :=
              firstChildMatch_shape cs' (i0 + 1) seg rest _ h
            injection hjq with h1 h2
            omega
          obtain ⟨c2, hc2, hx⟩ := firstChildMatch_valid cs' (i0 + 1) seg rest j q h
          have hsub : j - i0 = (j - (i0 + 1)) + 1 := by omega
          exact ⟨c2, by rw [hsub]; simpa [getIdx] using hc2, hx⟩
    · rw [if_neg hm] at h
      have hle : i0 + 1 ≤ j := by
        obtain ⟨j2, q2, hjq, hle2⟩ :=
          firstChildMatch_shape cs' (i0 + 1) seg rest _ h
        injection hjq with h1 h2
        omega
      obtain ⟨c2, hc2, hx⟩ := firstChildMatch_valid cs' (i0 + 1) seg rest j q h
      have hsub : j - i0 = (j - (i0 + 1)) + 1 := by omega
      exact ⟨c2, by rw [hsub]; simpa [getIdx] using hc2, hx⟩

end

end Cordova

namespace Cordova

mutual

theorem findFirst_stable : ∀ (n : XNode) (segs : List String) (p : List Nat)
    (f : XNode → XNode), (∀ x, (f x).tag = x.tag) → findFirst n segs = some p →
    findFirst (modifyAt n p f) segs = some p
  | n, [], p, f => by
    intro htag h
    have hp : p = [] := by simpa [findFirst] using h.symm
    subst hp
    simp [findFirst]
  | ⟨t, x, a, cs⟩, seg :: rest, p, f => by
    intro htag h
    simp only [findFirst] at h
    obtain ⟨j, q, rfl, -⟩ := firstChildMatch_shape cs 0 seg rest p h
    have hrec := firstChildMatch_stable cs 0 seg rest j q f htag h
    rw [Nat.sub_zero] at hrec
    simpa [findFirst, modifyAt, XNode.children] using hrec

theorem firstChildMatch_stable : ∀ (cs : List XNode) (i0 : Nat) (seg : String)
    (rest : List String) (j : Nat) (q : List Nat) (f : XNode → XNode),
    (∀ x, (f x).tag = x.tag) →
    firstChildMatch cs i0 seg rest = some (j :: q) →
    firstChildMatch (modifyIdx cs (j - i0) fun c => modifyAt c q f)
      i0 seg rest = some (j :: q)
  | [], i0, seg, rest, j, q, f => by
    intro htag h
    simp [firstChildMatch] at h
  | c :: cs', i0, seg, rest, j, q, f => by
    intro htag h
    simp only [firstChildMatch] at h
    by_cases hm : matchSeg seg c.tag
    · rw [if_pos hm] at h
      cases hf : findFirst c rest with
      | some q0 =>
          rw [hf] at h
          simp only [Option.some.injEq, List.cons.injEq] at h
          obtain ⟨h1, h2⟩ := h
          subst h1
          subst h2
          rw [Nat.sub_self]
          simp only [modifyIdx]
          have htagc : (modifyAt c q0 f).tag = c.tag := modifyAt_tag c q0 f htag
          have hff : findFirst (modifyAt c q0 f) rest = some q0 :=
            findFirst_stable c rest q0 f htag hf
          simp [firstChildMatch, htagc, hm, hff]
      | none =>
          rw [hf] at h
          have hle : i0 + 1 ≤ j := by
            obtain ⟨j2, q2, hjq, hle2⟩ :=
              firstChildMatch_shape cs' (i0 + 1) seg rest _ h
            injection hjq with h1 h2
            omega
          have hsub : j - i0 = (j - (i0 + 1)) + 1 := by omega
          rw [hsub]
          simp only [modifyIdx]
          have hrec := firstChildMatch_stable cs' (i0 + 1) seg rest j q f htag h
          simp [firstChildMatch, hm, hf, hrec]
    · rw [if_neg hm] at h
      have hle : i0 + 1 ≤ j := by
        obtain ⟨j2, q2, hjq, hle2⟩ :=
          firstChildMatch_shape cs' (i0 + 1) seg rest _ h
        injection hjq with h1 h2
        omega
      have hsub : j - i0 = (j - (i0 + 1)) + 1 := by omega
      rw [hsub]
      simp only [modifyIdx]
      have hrec := firstChildMatch_stable cs' (i0 + 1) seg rest j q f htag h
      simp [firstChildMatch, hm, hrec]

end

end Cordova

namespace Cordova

theorem resolveParent_valid (doc : XNode) (sel : String) (p : List Nat)
    (h : resolveParent doc sel = some p) : ∃ x, getAt doc p = some x := by
  unfold resolveParent at h
  split at h
  · split at h
    · exact absurd h (by simp)
    · split at h
      · exact findFirst_valid doc _ p h
      · exact absurd h (by simp)
  · split at h
    · exact absurd h (by simp)
    · exact findFirst_valid doc _ p h

theorem resolveParent_stable (doc : XNode) (sel : String) (p : List Nat)
    (f : XNode → XNode) (htag : ∀ x, (f x).tag = x.tag)
    (h : resolveParent doc sel = some p) :
    resolveParent (modifyAt doc p f) sel = some p := by
  unfold resolveParent at h ⊢
  split at h
  · split at h
    · exact absurd h (by simp)
    · split at h
      · next hmatch =>
        rw [if_pos (by rw [modifyAt_tag doc p f htag]; exact hmatch)]
        exact findFirst_stable doc _ p f htag h
      · exact absurd h (by simp)
  · split at h
    · exact absurd h (by simp)
    · exact findFirst_stable doc _ p f htag h

end Cordova

namespace Cordova

theorem setChildren_children (p : XNode) (cs : List XNode) :
    (p.setChildren cs).children = cs := by
  obtain ⟨t, x, a, c⟩ := p
  rfl

theorem setChildren_tag (p : XNode) (cs : List XNode) :
    (p.setChildren cs).tag = p.tag := by
  obtain ⟨t, x, a, c⟩ := p
  rfl

theorem insertNode_tag (par n : XNode) (a : Option String) :
    (insertNode par n a).tag = par.tag := by
  unfold insertNode
  split
  · rfl
  · exact setChildren_tag par _

theorem mem_insertAtIdx (l : List XNode) (i : Nat) (n x : XNode) (h : x ∈ l) :
    x ∈ insertAtIdx l i n := by
  unfold insertAtIdx
  rw [← List.take_append_drop i l] at h
  rcases List.mem_append.mp h with h1 | h1
  · exact List.mem_append_left _ h1
  · exact List.mem_append_right _ (List.mem_cons_of_mem _ h1)

theorem self_mem_insertAtIdx (l : List XNode) (i : Nat) (n : XNode) :
    n ∈ insertAtIdx l i n :=
  List.mem_append_right _ (List.mem_cons_self _ _)

theorem findChild_isSome_iff (n par : XNode) :
    (findChild n par).isSome = true ↔
      ∃ m, m ∈ par.children ∧ matchSeg n.tag m.tag = true ∧
        equalNodes n m = true := by
  unfold findChild findall
  rw [List.find?_isSome]
  constructor
  · rintro ⟨m, hm, he⟩
    obtain ⟨hmem, hmatch⟩ := List.mem_filter.mp hm
    exact ⟨m, hmem, hmatch, he⟩
  · rintro ⟨m, hmem, hmatch, he⟩
    exact ⟨m, List.mem_filter.mpr ⟨hmem, hmatch⟩, he⟩

theorem findChild_isSome_insertNode (m par n : XNode) (a : Option String)
    (h : (findChild m par).isSome = true) :
    (findChild m (insertNode par n a)).isSome = true := by
  unfold insertNode
  split
  · exact h
  · rw [findChild_isSome_iff] at h ⊢
    obtain ⟨c, hc, hm1, hm2⟩ := h
    exact ⟨c, by rw [setChildren_children]; exact mem_insertAtIdx _ _ _ _ hc,
      hm1, hm2⟩

theorem findChild_self_insertNode (par n : XNode) (a : Option String) :
    (findChild n (insertNode par n a)).isSome = true := by
  unfold insertNode
  split
  · next heq => simp [heq]
  · rw [findChild_isSome_iff]
    exact ⟨n, by rw [setChildren_children]; exact self_mem_insertAtIdx _ _ _,
      by simp [matchSeg], equalNodes_refl n⟩

theorem findChild_isSome_foldl (ms : List XNode) (par m : XNode)
    (a : Option String) (h : (findChild m par).isSome = true) :
    (findChild m (List.foldl (fun x nd => insertNode x nd a) par ms)).isSome
      = true := by
  induction ms generalizing par with
  | nil => exact h
  | cons hd tl ih =>
      exact ih (insertNode par hd a) (findChild_isSome_insertNode m par hd a h)

theorem foldl_insertNode_found (ms : List XNode) (par : XNode)
    (a : Option String) :
    ∀ n ∈ ms,
      (findChild n (List.foldl (fun x nd => insertNode x nd a) par ms)).isSome
        = true := by
  induction ms generalizing par with
  | nil => intro n hn; simp at hn
  | cons hd tl ih =>
      intro n hn
      rcases List.mem_cons.mp hn with h1 | h1
      · subst h1
        exact findChild_isSome_foldl tl (insertNode par n a) n a
          (findChild_self_insertNode par n a)
      · exact ih (insertNode par hd a) n h1

theorem insertNode_of_found (par n : XNode) (a : Option String)
    (h : (findChild n par).isSome = true) : insertNode par n a = par := by
  unfold insertNode
  split
  · rfl
  · next heq => rw [heq] at h; simp at h

theorem insertNodes_cons (d : XNode) (p : List Nat) (n : XNode)
    (ns : List XNode) (a : Option String) :
    insertNodes d p (n :: ns) a =
      insertNodes (modifyAt d p fun par => insertNode par n a) p ns a := rfl

theorem getAt_insertNodes (d : XNode) (p : List Nat) (nodes : List XNode)
    (a : Option String) (par : XNode) (h : getAt d p = some par) :
    getAt (insertNodes d p nodes a) p =
      some (List.foldl (fun x n => insertNode x n a) par nodes) := by
  induction nodes generalizing d par with
  | nil => exact h
  | cons n ns ih =>
      rw [insertNodes_cons]
      exact ih _ _ (getAt_modifyAt d p _ par h)

theorem resolveParent_insertNodes (d : XNode) (sel : String) (p : List Nat)
    (nodes : List XNode) (a : Option String)
    (h : resolveParent d sel = some p) :
    resolveParent (insertNodes d p nodes a) sel = some p := by
  induction nodes generalizing d with
  | nil => exact h
  | cons n ns ih =>
      rw [insertNodes_cons]
      exact ih _ (resolveParent_stable d sel p _
        (fun x => insertNode_tag x n a) h)

theorem insertNodes_id (d : XNode) (p : List Nat) (nodes : List XNode)
    (a : Option String) (par : XNode) (hpar : getAt d p = some par)
    (hall : ∀ n ∈ nodes, (findChild n par).isSome = true) :
    insertNodes d p nodes a = d := by
  induction nodes with
  | nil => rfl
  | cons n ns ih =>
      rw [insertNodes_cons,
        modifyAt_id d p _ par hpar
          (insertNode_of_found par n a (hall n (List.mem_cons_self _ _)))]
      exact ih fun m hm => hall m (List.mem_cons_of_mem _ hm)

theorem graftFuel_true (fuel : Nat) (doc : XNode) (nodes : List XNode)
    (sel : String) (a : Option String) (d1 : XNode)
    (h : graftFuel fuel doc nodes sel a = (true, d1)) :
    ∃ db p, resolveParent db sel = some p ∧ d1 = insertNodes db p nodes a := by
  cases fuel with
  | zero => exact absurd h (by simp [graftFuel])
  | succ k =>
      simp only [graftFuel] at h
      split at h
      · next p heq =>
        injection h with h1 h2
        exact ⟨doc, p, heq, h2.symm⟩
      · split at h
        · split at h
          · next p heq =>
            injection h with h1 h2
            exact ⟨_, p, heq, h2.symm⟩
          · exact absurd h (by simp)
        · exact absurd h (by simp)

/-- C6: `graftXML` skips a node whenever an `equalNodes`-equal child already
exists under the resolved parent, and is therefore idempotent: after a
successful graft, running the same graft again returns `true` and leaves the
document (in particular the parent's child list) exactly as it was after the
first call. -/
theorem graftXML_idempotent (doc : XNode) (nodes : List XNode) (sel : String)
    (a : Option String) (d1 : XNode) :
    (∀ par n, (findChild n par).isSome = true → insertNode par n a = par) ∧
    (graftXML doc nodes sel a = (true, d1) →
      graftXML d1 nodes sel a = (true, d1)) := by
  constructor
  · exact fun par n h => insertNode_of_found par n a h
  · intro h
    obtain ⟨db, p, hres, hd1⟩ := graftFuel_true _ doc nodes sel a d1 h
    subst hd1
    have hres1 : resolveParent (insertNodes db p nodes a) sel = some p :=
      resolveParent_insertNodes db sel p nodes a hres
    obtain ⟨par0, hpar0⟩ := resolveParent_valid db sel p hres
    have hpar1 := getAt_insertNodes db p nodes a par0 hpar0
    have hfound := foldl_insertNode_found nodes par0 a
    show graftFuel ((parseSel sel).length + 2) _ nodes sel a = _
    rw [show (parseSel sel).length + 2 = ((parseSel sel).length + 1) + 1
      from rfl]
    simp only [graftFuel]
    rw [hres1]
    simp only
    rw [insertNodes_id _ p nodes a _ hpar1 hfound]

/-- Concrete inputs for the graft idempotence witness. -/
def doc6 : XNode := ⟨"widget", "", [], [⟨"b", "", [], []⟩]⟩

def nodes6 : List XNode := [⟨"uses-permission", "", [("android:name", "X")], []⟩]

theorem graftXML_idempotent_witness :
    graftXML (graftXML doc6 nodes6 "b" none).2 nodes6 "b" none =
      (true, (graftXML doc6 nodes6 "b" none).2) :=
  (graftXML_idempotent doc6 nodes6 "b" none
    (graftXML doc6 nodes6 "b" none).2).2 (by decide)

end Cordova

namespace Cordova

theorem segsOfAux_no_slash (acc cs : List Char) (h : ∀ c ∈ cs, c ≠ '/')
    (hne : acc ≠ [] ∨ cs ≠ []) :
    segsOfAux acc cs = [String.mk (acc.reverse ++ cs)] := by
  induction cs generalizing acc with
  | nil =>
      have hacc : acc ≠ [] := by
        rcases hne with h1 | h1
        · exact h1
        · exact absurd rfl h1
      have : ¬acc.isEmpty := by simpa [List.isEmpty_iff] using hacc
      simp [segsOfAux, this]
  | cons c rest ih =>
      have hc : c ≠ '/' := h c (List.mem_cons_self _ _)
      have hrest : ∀ x ∈ rest, x ≠ '/' := fun x hx => h x (List.mem_cons_of_mem _ hx)
      rw [show segsOfAux acc (c :: rest) = segsOfAux (c :: acc) rest by
        simp [segsOfAux, hc]]
      rw [ih (c :: acc) hrest (Or.inl (by simp))]
      simp

/-- C8: `resolveParent` is a total function that either fails (`none`,
modelling the falsy result) or returns a path addressing a node of the
document - it cannot throw; the namespace-independent wildcard absolute
selector `/*` resolves to the document root, and an absolute selector
naming the root tag resolves to the root (for any root tag that is a
real tag name: nonempty, no `/`, not the `.` self-step). -/
theorem resolveParent_total_spec (doc : XNode) (sel : String) :
    (resolveParent doc sel = none ∨
      ∃ p x, resolveParent doc sel = some p ∧ getAt doc p = some x) ∧
    resolveParent doc "/*" = some [] ∧
    ((∀ c ∈ doc.tag.toList, c ≠ '/') → doc.tag ≠ "" → doc.tag ≠ "." →
      resolveParent doc ("/" ++ doc.tag) = some []) := by
  refine ⟨?_, ?_, ?_⟩
  · cases hr : resolveParent doc sel with
    | none => exact Or.inl rfl
    | some p =>
        obtain ⟨x, hx⟩ := resolveParent_valid doc sel p hr
        exact Or.inr ⟨p, x, rfl, hx⟩
  · have : matchSeg "*" doc.tag = true := by simp [matchSeg]
    simp [resolveParent, segsOfAux, this, findFirst]
  · intro hslash hne hdot
    have htl : ("/" ++ doc.tag).toList = '/' :: doc.tag.toList := rfl
    have htne : doc.tag.toList ≠ [] := by
      intro hh
      exact hne (by
        have : doc.tag = String.mk [] := by
          cases htag : doc.tag
          simpa [htag] using congrArg String.mk hh
        simpa using this)
    have hsegs : segsOfAux [] doc.tag.toList = [doc.tag] := by
      rw [segsOfAux_no_slash [] doc.tag.toList hslash (Or.inr htne)]
      simp
    have hfil : List.filter (fun x => decide (x ≠ ".")) [doc.tag] = [doc.tag] := by
      simp [hdot]
    unfold resolveParent
    rw [htl]
    split
    · next restChars heq =>
      injection heq with h1 h2
      subst h2
      rw [hsegs, hfil]
      simp [matchSeg, findFirst]
    · next hno => exact (hno doc.tag.toList rfl).elim

theorem resolveParent_total_spec_witness :
    (resolveParent doc6 "nope" = none ∨
      ∃ p x, resolveParent doc6 "nope" = some p ∧ getAt doc6 p = some x) ∧
    resolveParent doc6 "/*" = some [] ∧
    resolveParent doc6 ("/" ++ doc6.tag) = some [] := by
  have h := resolveParent_total_spec doc6 "nope"
  exact ⟨h.1, h.2.1, h.2.2 (by decide) (by decide) (by decide)⟩

end Cordova

namespace Cordova

theorem getAssoc_of_mem_nodup {α : Type} (l : List (String × α)) (k : String)
    (w : α) (hnd : (l.map Prod.fst).Nodup) (hmem : (k, w) ∈ l) :
    getAssoc l k = some w := by
  induction l with
  | nil => simp at hmem
  | cons hd tl ih =>
      obtain ⟨k0, v0⟩ := hd
      rw [List.map_cons, List.nodup_cons] at hnd
      rcases List.mem_cons.mp hmem with h1 | h1
      · obtain ⟨hk, hv⟩ := Prod.mk.injEq .. ▸ h1
        simp only [Prod.mk.injEq] at h1
        simp [getAssoc, h1.1.symm, h1.2]
      · have hk : k0 ≠ k := by
          intro hh
          subst hh
          exact hnd.1 (List.mem_map.mpr ⟨(k0, w), h1, rfl⟩)
        simp [getAssoc, hk, ih hnd.2 h1]

theorem keys_filter_sublist (a : AttrList) (p : String × String → Bool) :
    ((a.filter p).map Prod.fst).Sublist (a.map Prod.fst) :=
  (List.filter_sublist a).map Prod.fst

theorem deleteTruthy_eq_filter (a : AttrList) (k : String)
    (hnd : (a.map Prod.fst).Nodup) :
    deleteTruthy a k = a.filter fun kv => !(decide (kv.1 = k) && kv.2 != "") := by
  unfold deleteTruthy
  cases hg : getAssoc a k with
  | none =>
      have hk : ∀ kv ∈ a, kv.1 ≠ k := by
        intro kv hkv hh
        obtain ⟨v, hv⟩ := getAssoc_isSome_of_mem_keys a k
          (List.mem_map.mpr ⟨kv, hkv, hh⟩)
        rw [hv] at hg
        exact Option.noConfusion hg
      have hfa : (a.filter fun kv => !(decide (kv.1 = k) && kv.2 != "")) = a :=
        List.filter_eq_self.mpr fun kv hkv => by simp [hk kv hkv]
      rw [hfa]
  | some v =>
      have hval : ∀ kv ∈ a, kv.1 = k → kv.2 = v := by
        intro kv hkv hk
        have hlook : getAssoc a kv.1 = some kv.2 :=
          getAssoc_of_mem_nodup a kv.1 kv.2 hnd (by simpa using hkv)
        rw [hk, hg] at hlook
        exact (Option.some.injEq _ _ ▸ hlook).symm
      by_cases hv : v ≠ ""
      · show (if v ≠ "" then eraseKey a k else a) = _
        rw [if_pos hv]
        unfold eraseKey
        apply List.filter_congr
        intro kv hkv
        by_cases hk : kv.1 = k
        · simp [hk, hval kv hkv hk, hv]
        · simp [hk]
      · show (if v ≠ "" then eraseKey a k else a) = _
        rw [if_neg hv]
        push_neg at hv
        have hfa : (a.filter fun kv => !(decide (kv.1 = k) && kv.2 != "")) = a := by
          apply List.filter_eq_self.mpr
          intro kv hkv
          by_cases hk : kv.1 = k
          · simp [hk, hval kv hkv hk, hv]
          · simp [hk]
        rw [hfa]

theorem foldl_deleteTruthy_filter (ks : List String) (a : AttrList)
    (hnd : (a.map Prod.fst).Nodup) :
    List.foldl deleteTruthy a ks =
      a.filter fun kv => !(decide (kv.1 ∈ ks) && kv.2 != "") := by
  induction ks generalizing a with
  | nil =>
      have hfa : (a.filter fun kv => !(decide (kv.1 ∈ ([] : List String)) && kv.2 != "")) = a :=
        List.filter_eq_self.mpr fun kv hkv => by simp
      rw [hfa]
      rfl
  | cons k ks' ih =>
      have hstep := deleteTruthy_eq_filter a k hnd
      have hnd' : ((deleteTruthy a k).map Prod.fst).Nodup := by
        rw [hstep]
        exact (keys_filter_sublist a _).nodup hnd
      rw [List.foldl_cons, ih (deleteTruthy a k) hnd', hstep,
        List.filter_filter]
      apply List.filter_congr
      intro kv hkv
      by_cases h1 : kv.1 = k <;> by_cases h2 : kv.1 ∈ ks' <;>
        by_cases h3 : kv.2 = "" <;>
        simp [h1, h2, h3, List.mem_cons]

end Cordova

namespace Cordova

theorem modifyIdx_congr {α : Type} (l : List α) (i : Nat) (f g : α → α)
    (x : α) (h : getIdx l i = some x) (hfg : f x = g x) :
    modifyIdx l i f = modifyIdx l i g := by
  induction l generalizing i with
  | nil => rfl
  | cons y ys ih =>
      cases i with
      | zero =>
          have hy : y = x := by simpa [getIdx] using h
          subst hy
          simp [modifyIdx, hfg]
      | succ j =>
          have h' : getIdx ys j = some x := by simpa [getIdx] using h
          simp [modifyIdx, ih j h']

theorem modifyAt_congr (d : XNode) (p : List Nat) (f g : XNode → XNode)
    (x : XNode) (h : getAt d p = some x) (hfg : f x = g x) :
    modifyAt d p f = modifyAt d p g := by
  induction p generalizing d with
  | nil =>
      have hx : d = x := by simpa [getAt] using h
      subst hx
      simpa [modifyAt] using hfg
  | cons i p ih =>
      obtain ⟨t, xx, a, cs⟩ := d
      cases hc : getIdx cs i with
      | none =>
          simp [getAt, XNode.children, hc] at h
      | some c =>
          have h' : getAt c p = some x := by
            simpa [getAt, XNode.children, hc] using h
          simp only [modifyAt]
          congr 1
          exact modifyIdx_congr cs i _ _ c hc (ih c h')

theorem prune_fold_flatten (nodes : List XNode) (a0 : AttrList) :
    nodes.foldl (fun acc n =>
      n.attrib.foldl (fun acc2 kv => deleteTruthy acc2 kv.1) acc) a0 =
    List.foldl deleteTruthy a0 (nodes.flatMap fun n => n.attrib.map Prod.fst) := by
  induction nodes generalizing a0 with
  | nil => rfl
  | cons n ns ih =>
      rw [List.foldl_cons, ih, List.flatMap_cons, List.foldl_append]
      congr 1
      simp [List.foldl_map]

/-- C9 (amended): when the selector resolves, `pruneXMLRemove` returns
`true` and deletes from the target exactly those attribute keys carried by
the nodes whose current value on the target is nonempty (a key whose target
value is the empty string is falsy in JS and is skipped); all other
attributes, and the rest of the document, are unchanged.  When the selector
does not resolve it returns `false` and leaves the document unchanged. -/
theorem pruneXMLRemove_spec (doc : XNode) (sel : String) (nodes : List XNode) :
    (resolveParent doc sel = none → pruneXMLRemove doc sel nodes = (false, doc)) ∧
    (∀ p t, resolveParent doc sel = some p → getAt doc p = some t →
      (t.attrib.map Prod.fst).Nodup →
      pruneXMLRemove doc sel nodes =
        (true, modifyAt doc p fun x => x.setAttrib
          (t.attrib.filter fun kv =>
            !(decide (kv.1 ∈ nodes.flatMap fun n => n.attrib.map Prod.fst) &&
              kv.2 != "")))) := by
  constructor
  · intro h
    unfold pruneXMLRemove
    rw [h]
  · intro p t hres hget hnd
    unfold pruneXMLRemove
    rw [hres]
    show (true, modifyAt doc p _) = _
    rw [Prod.mk.injEq]
    refine ⟨rfl, ?_⟩
    apply modifyAt_congr doc p _ _ t hget
    show t.setAttrib (nodes.foldl _ t.attrib) = t.setAttrib _
    rw [prune_fold_flatten nodes t.attrib,
      foldl_deleteTruthy_filter _ t.attrib hnd]

/-- Concrete inputs refuting the unqualified form of the claim. -/
def docPrune : XNode := ⟨"widget", "", [("k", ""), ("other", "v")], []⟩

def nodesPrune : List XNode := [⟨"a", "", [("k", "x")], []⟩]

/-- C9 counterexample: the selector resolves and the key `k` is present on
the nodes, yet `pruneXMLRemove` leaves the target unchanged (its `k` has
the falsy value `""`), so the operation does not delete every key present
on the nodes. -/
theorem pruneXMLRemove_empty_value_counterexample :
    pruneXMLRemove docPrune "/*" nodesPrune = (true, docPrune) ∧
    "k" ∈ (nodesPrune.flatMap fun n => n.attrib.map Prod.fst) ∧
    getAssoc ((pruneXMLRemove docPrune "/*" nodesPrune).2).attrib "k" =
      some "" := by
  refine ⟨by decide, by decide, by decide⟩

/-- Concrete inputs for the amended-claim witness. -/
def docPrune2 : XNode := ⟨"widget", "", [("k", "v1"), ("other", "w")], []⟩

theorem pruneXMLRemove_spec_witness :
    pruneXMLRemove docPrune2 "/*" nodesPrune =
      (true, modifyAt docPrune2 [] fun x => x.setAttrib
        (docPrune2.attrib.filter fun kv =>
          !(decide (kv.1 ∈ nodesPrune.flatMap fun n => n.attrib.map Prod.fst) &&
            kv.2 != ""))) :=
  (pruneXMLRemove_spec docPrune2 "/*" nodesPrune).2 [] docPrune2
    (by decide) (by decide) (by decide)

end Cordova

namespace Cordova

/-- The value the last binding of a key in a source list gives (JS
`Object.assign` is last-writer-wins). -/
def lastVal : AttrList → String → Option String
  | [], _ => none
  | kv :: rest, k =>
      match lastVal rest k with
      | some v => some v
      | none => if kv.1 = k then some kv.2 else none

theorem lastVal_none (src : AttrList) (k : String)
    (h : k ∉ src.map Prod.fst) : lastVal src k = none := by
  induction src with
  | nil => rfl
  | cons kv rest ih =>
      have hk : kv.1 ≠ k := by
        intro hh
        exact h (by simp [hh])
      have h' : k ∉ rest.map Prod.fst := fun hh => h (by simp [hh])
      simp [lastVal, ih h', hk]

theorem getAssoc_assignPairs (d src : AttrList) (k : String) :
    getAssoc (assignPairs d src) k =
      match lastVal src k with
      | some v => some v
      | none => getAssoc d k := by
  induction src generalizing d with
  | nil => rfl
  | cons kv rest ih =>
      rw [show assignPairs d (kv :: rest) =
        assignPairs (setAssoc d kv.1 kv.2) rest from rfl]
      rw [ih (setAssoc d kv.1 kv.2)]
      cases hl : lastVal rest k with
      | some v => simp [lastVal, hl]
      | none =>
          by_cases hk : kv.1 = k
          · simp [lastVal, hl, hk, getAssoc_setAssoc]
          · simp [lastVal, hl, hk, getAssoc_setAssoc]

theorem graftXMLAttrs_resolved (doc : XNode) (nodes : List XNode)
    (sel : String) (frag : Frag) (ow : Bool) (p : List Nat) (t : XNode)
    (hres : resolveParent doc sel = some p) (hget : getAt doc p = some t) :
    graftXMLAttrs doc nodes sel frag ow =
      (true, { frag with oldAttrib := some t.attrib },
        modifyAt doc p fun x => x.setAttrib
          (assignPairs (if ow then [] else t.attrib)
            (nodes.flatMap XNode.attrib))) := by
  unfold graftXMLAttrs
  rw [hres]
  show (match getAt doc p with
    | none => (false, frag, doc)
    | some t => _) = _
  rw [hget]

/-- C10: when the target is unresolvable both attribute grafts return
`false` and change nothing; when it resolves, both snapshot the target's
pre-operation attributes into the fragment's `oldAttrib` and return `true`;
merge assigns the candidate nodes' attributes over the existing ones
(last writer wins) and never removes a target attribute not named by a
candidate; overwrite clears the target's attributes first and then assigns
the candidates'. -/
theorem graftXMLAttrs_spec (doc : XNode) (nodes : List XNode) (sel : String)
    (frag : Frag) :
    (resolveParent doc sel = none →
      graftXMLMerge doc nodes sel frag = (false, frag, doc) ∧
      graftXMLOverwrite doc nodes sel frag = (false, frag, doc)) ∧
    (∀ p t, resolveParent doc sel = some p → getAt doc p = some t →
      graftXMLMerge doc nodes sel frag =
        (true, { frag with oldAttrib := some t.attrib },
          modifyAt doc p fun x => x.setAttrib
            (assignPairs t.attrib (nodes.flatMap XNode.attrib))) ∧
      graftXMLOverwrite doc nodes sel frag =
        (true, { frag with oldAttrib := some t.attrib },
          modifyAt doc p fun x => x.setAttrib
            (assignPairs [] (nodes.flatMap XNode.attrib))) ∧
      (∀ k, k ∉ (nodes.flatMap XNode.attrib).map Prod.fst →
        getAssoc (assignPairs t.attrib (nodes.flatMap XNode.attrib)) k =
          getAssoc t.attrib k) ∧
      (∀ k v, lastVal (nodes.flatMap XNode.attrib) k = some v →
        getAssoc (assignPairs t.attrib (nodes.flatMap XNode.attrib)) k =
          some v ∧
        getAssoc (assignPairs [] (nodes.flatMap XNode.attrib)) k = some v)) := by
  constructor
  · intro h
    constructor
    · unfold graftXMLMerge graftXMLAttrs
      rw [h]
    · unfold graftXMLOverwrite graftXMLAttrs
      rw [h]
  · intro p t hres hget
    refine ⟨?_, ?_, ?_, ?_⟩
    · exact graftXMLAttrs_resolved doc nodes sel frag false p t hres hget
    · exact graftXMLAttrs_resolved doc nodes sel frag true p t hres hget
    · intro k hk
      rw [getAssoc_assignPairs, lastVal_none _ k hk]
    · intro k v hv
      constructor
      · rw [getAssoc_assignPairs, hv]
      · rw [getAssoc_assignPairs, hv]

/-- Concrete inputs for the attribute-graft witness. -/
def docAttrs : XNode :=
  ⟨"uses-sdk", "",
    [("android:minSdkVersion", "5"), ("android:maxSdkVersion", "27")], []⟩

def nodesAttrs : List XNode :=
  [⟨"uses-sdk", "", [("android:targetSdkVersion", "24")], []⟩]

def fragAttrs : Frag := { xml := "<uses-sdk />", count := 1 }

theorem graftXMLAttrs_spec_witness :
    graftXMLMerge docAttrs nodesAttrs "/uses-sdk" fragAttrs =
      (true, { fragAttrs with oldAttrib := some docAttrs.attrib },
        modifyAt docAttrs [] fun x => x.setAttrib
          (assignPairs docAttrs.attrib (nodesAttrs.flatMap XNode.attrib))) ∧
    getAssoc (assignPairs docAttrs.attrib (nodesAttrs.flatMap XNode.attrib))
      "android:minSdkVersion" = getAssoc docAttrs.attrib "android:minSdkVersion" := by
  have h := (graftXMLAttrs_spec docAttrs nodesAttrs "/uses-sdk" fragAttrs).2
    [] docAttrs (by decide) (by decide)
  exact ⟨h.1, h.2.2.1 "android:minSdkVersion" (by decide)⟩

end Cordova
